import Mathlib

/-!
Verification of the express-like framework (Application / Router / serveStatic).

The development shallowly embeds the TypeScript source:
* paths are `List Char` (one entry per UTF-16 code unit of the JS string;
  percent-decoding of a multi-byte UTF-8 sequence is modelled byte-wise, which
  is faithful for every character relevant to traversal analysis, namely
  `'.'`, `'/'` and `'%'`, all single-byte);
* Node `path.posix.normalize` / `path.posix.join` are modelled segment-wise,
  following Node's `normalizeString` algorithm;
* the `Application` route matcher is modelled by compiling a route pattern to
  the token list of the regex the source builds (literal characters and
  `([^/]+)` parameter groups) and running that regex; the model treats
  pattern characters other than `:`-parameters as literals, which is faithful
  for patterns over word characters, `-`, `/` and `:` (the source would give
  regex metacharacters like `.` a wildcard meaning; such patterns are outside
  the model and outside every claim);
* the dispatcher (`handleRequest`'s `next` closure) is modelled as a driver
  over a list of single-shot handlers; a handler is a state transformer that
  then either calls `next` (with or without an error), throws synchronously,
  or returns without calling `next`.  The driver emits a trace of events
  (handler invocations, error-terminal and not-found-terminal invocations)
  that handlers themselves cannot forge.
-/

namespace ExpressSpec

/-! ## Characters and strings -/

/-- Code-unit list of a string literal (JS strings are modelled as `List Char`). -/
def chars (s : String) : List Char := s.data

/-- JS `\w` word character: `[A-Za-z0-9_]`. -/
def wordChar (c : Char) : Bool := c.isAlphanum || c == '_'

/-! ## Splitting a path on `/` (JS `String.prototype.split('/')`) -/

/-- Split a character list at every `'/'`; like JS `s.split('/')`, the result
is never empty and keeps empty pieces. -/
def splitSlash : List Char → List (List Char)
| [] => [[]]
| c :: rest =>
  if c = '/' then [] :: splitSlash rest
  else
    match splitSlash rest with
    | s :: ss => (c :: s) :: ss
    | [] => [[c]]

/-- Nonempty `/`-separated segments of a path, as in
`path.split('/').filter(Boolean)`. -/
def segsOf (p : List Char) : List (List Char) :=
  (splitSlash p).filter (fun s => !s.isEmpty)

/-- Join segments as an absolute path: `joinSegs [a, b] = "/a/b"`. -/
def joinSegs : List (List Char) → List Char
| [] => []
| s :: rest => '/' :: (s ++ joinSegs rest)

/-- Join segments with `/` separators and no leading slash. -/
def intercalSlash : List (List Char) → List Char
| [] => []
| [s] => s
| s :: rest => s ++ '/' :: intercalSlash rest

/-! ## Node `path.posix` model -/

/-- JS `filePath.includes('..')`: two consecutive dots occur somewhere. -/
def hasDotDot : List Char → Bool
| [] => false
| [_] => false
| a :: b :: rest => (a == '.' && b == '.') || hasDotDot (b :: rest)

/-- One step of Node's `normalizeString` segment stack: `.` is dropped, `..`
pops the last segment when possible (and is dropped at the root of an
absolute path, kept for a relative one), and any other segment is pushed. -/
def normStep (isAbs : Bool) (acc : List (List Char)) (seg : List Char) : List (List Char) :=
  if seg = ['.'] then acc
  else if seg = ['.', '.'] then
    if acc ≠ [] ∧ acc.getLast? ≠ some ['.', '.'] then acc.dropLast
    else if isAbs then acc
    else acc ++ [seg]
  else acc ++ [seg]

/-- Fold `normStep` over the segments. -/
def normStack (isAbs : Bool) : List (List Char) → List (List Char) → List (List Char)
| acc, [] => acc
| acc, seg :: rest => normStack isAbs (normStep isAbs acc seg) rest

/-- Node `path.posix.normalize`. -/
def pathNormalize (p : List Char) : List Char :=
  if p = [] then ['.']
  else
    let isAbs : Bool := p.head? == some '/'
    let hasTrail : Bool := p.getLast? == some '/'
    let out := normStack isAbs [] (segsOf p)
    if out = [] then
      (if isAbs then ['/'] else if hasTrail then ['.', '/'] else ['.'])
    else
      (if isAbs then '/' :: intercalSlash out else intercalSlash out)
        ++ (if hasTrail then ['/'] else [])

/-- Node `path.posix.join` of two parts (empty parts are skipped, the
concatenation is normalized). -/
def pathJoin (a b : List Char) : List Char :=
  if a = [] ∧ b = [] then ['.']
  else if a = [] then pathNormalize b
  else if b = [] then pathNormalize a
  else pathNormalize (a ++ '/' :: b)

/-! ## Percent decoding (JS `decodeURIComponent`)

Valid `%XX` hex pairs are decoded byte-wise; a malformed `%` sequence is kept
literally (real `decodeURIComponent` throws a `URIError` there, in which case
the middleware performs no filesystem access at all, so keeping it literal
only enlarges the input set the containment theorem covers). -/

def hexVal (c : Char) : Option Nat :=
  if '0' ≤ c ∧ c ≤ '9' then some (c.toNat - '0'.toNat)
  else if 'a' ≤ c ∧ c ≤ 'f' then some (c.toNat - 'a'.toNat + 10)
  else if 'A' ≤ c ∧ c ≤ 'F' then some (c.toNat - 'A'.toNat + 10)
  else none

def percentDecode : List Char → List Char
| '%' :: h1 :: h2 :: rest =>
  match hexVal h1, hexVal h2 with
  | some v1, some v2 => Char.ofNat (v1 * 16 + v2) :: percentDecode rest
  | _, _ => '%' :: percentDecode (h1 :: h2 :: rest)
| c :: rest => c :: percentDecode rest
| [] => []

/-! ## serveStatic (src/middleware.ts 128-202): path resolution and the set of
filesystem paths the middleware can touch -/

/-- Outcome of the path-sanitizing phase of `serveStatic`: either the decoded,
normalized path still contains `..` (the middleware calls
`next(new Error('Invalid file path'))`) or it resolves to an absolute
filesystem path under (what the middleware believes is) the root. -/
inductive StaticStep
| traversalError
| resolved (abs : List Char)
deriving DecidableEq, Repr

/-- The `filePath` the middleware computes:
`path.normalize(decodeURIComponent(pathname))`. -/
def staticFilePath (pathname : List Char) : List Char :=
  pathNormalize (percentDecode pathname)

/-- Steps 139-152 of `serveStatic`: decode, normalize, reject on `..`, strip a
leading `/`, join onto the resolved root. -/
def staticResolve (rootPath pathname : List Char) : StaticStep :=
  let fp := staticFilePath pathname
  if hasDotDot fp then .traversalError
  else
    let fp2 := if fp.head? = some '/' then fp.tail else fp
    .resolved (pathJoin rootPath fp2)

/-- What `fs.stat` can report for a path, as far as the middleware's branching
is concerned. -/
inductive FsNode
| missing
| statError
| file
| dir
| other
deriving DecidableEq, Repr

/-- Dotfiles policy of `serveStatic`. -/
inductive Dotfiles
| allow
| deny
| ignore
deriving DecidableEq, Repr

/-- JS `path.basename` (POSIX): last nonempty `/`-separated piece. -/
def pathBasename (p : List Char) : List Char :=
  (segsOf p).getLast?.getD []

/-- Every filesystem path `serveStatic` touches on a request, given an oracle
`fsys` for the `fs.stat` results: the stat of the resolved path, the stat of
the directory index file, and the path handed to `fs.stat`(HEAD)/
`fs.createReadStream`(GET) by `serveFile`.  Mirrors the branching of
`serveStatic` (method filter, traversal check, dotfile policy, stat
dispatch). -/
def staticAccessPaths (fsys : List Char → FsNode) (rootPath : List Char)
    (index : Option (List Char)) (dot : Dotfiles) (method : List Char)
    (pathname : List Char) : List (List Char) :=
  if method ≠ chars "GET" ∧ method ≠ chars "HEAD" then []
  else
    match staticResolve rootPath pathname with
    | .traversalError => []
    | .resolved abs =>
      if (pathBasename abs).head? = some '.' ∧ dot ≠ .allow then []
      else
        abs :: (
          match fsys abs with
          | .dir =>
            match index with
            | none => []
            | some idx =>
              let indexPath := pathJoin abs idx
              indexPath :: (if fsys indexPath = .file then [indexPath] else [])
          | .file => [abs]
          | _ => [])

/-- Containment in a root given by its segment list: the path's nonempty
segments extend the root's, and the extension never contains a `..` that
could climb back out. -/
def withinRoot (rsegs : List (List Char)) (p : List Char) : Prop :=
  ∃ extra, segsOf p = rsegs ++ extra ∧ ∀ s ∈ extra, s ≠ ['.', '.']

/-! ## Application.matchRoute (src/Application.ts 435-458)

The source builds `new RegExp('^' + pattern + '$')` where `pattern` is the
route path with trailing slashes removed, `:name` replaced by `([^/]+)` and
`/` escaped.  The regex is modelled by its token list. -/

/-- One token of the compiled route regex: a literal character or a `([^/]+)`
parameter group. -/
inductive RTok
| lit (c : Char)
| param
deriving DecidableEq, Repr

/-- Remove the maximal run of trailing slashes: `routePath.replace(/\/+$/, '')`. -/
def stripTrailingSlashes (p : List Char) : List Char :=
  (p.reverse.dropWhile (fun c => c = '/')).reverse

mutual

/-- Compile a route path to regex tokens: `:name` (name = maximal `\w+` run)
becomes a parameter group, everything else a literal character, mirroring
`.replace(/:(\w+)/g, '([^/]+)')` (the `/`-escaping step does not change the
recognized language).  `tokenizeColon` handles the characters after a `:`,
`tokenizeName` skips the remainder of a parameter name. -/
def tokenizePattern : List Char → List RTok
| [] => []
| ':' :: rest => tokenizeColon rest
| c :: rest => RTok.lit c :: tokenizePattern rest

/-- State after reading a `:`: a word character starts a parameter group,
another `:` restarts, anything else keeps the `:` literal. -/
def tokenizeColon : List Char → List RTok
| [] => [RTok.lit ':']
| c :: rest =>
  if wordChar c then RTok.param :: tokenizeName rest
  else if c = ':' then RTok.lit ':' :: tokenizeColon rest
  else RTok.lit ':' :: RTok.lit c :: tokenizePattern rest

/-- State inside a parameter name: word characters are part of the name
(already represented by the emitted group), the first non-word character
resumes ordinary tokenization. -/
def tokenizeName : List Char → List RTok
| [] => []
| c :: rest =>
  if wordChar c then tokenizeName rest
  else if c = ':' then tokenizeColon rest
  else RTok.lit c :: tokenizePattern rest

end

mutual

/-- The names of the `:name` parameters of a route path, in order:
`routePath.match(/:\w+/g)` with the leading `:` removed.  Same traversal
structure as the tokenizer, with the current name accumulated in reverse. -/
def paramNames : List Char → List (List Char)
| [] => []
| ':' :: rest => paramColon rest
| _ :: rest => paramNames rest

def paramColon : List Char → List (List Char)
| [] => []
| c :: rest =>
  if wordChar c then paramName [c] rest
  else if c = ':' then paramColon rest
  else paramNames rest

def paramName (acc : List Char) : List Char → List (List Char)
| [] => [acc.reverse]
| c :: rest =>
  if wordChar c then paramName (c :: acc) rest
  else if c = ':' then acc.reverse :: paramColon rest
  else acc.reverse :: paramNames rest

end

/-- Anchored matching of the compiled regex against a concrete path (`^...$`):
a literal token consumes its character, a parameter group consumes a nonempty
run of non-`/` characters. -/
def tokMatch : List RTok → List Char → Bool
| [], [] => true
| [], _ :: _ => false
| .lit _ :: _, [] => false
| .lit c :: ts, d :: s => c == d && tokMatch ts s
| .param :: _, [] => false
| .param :: ts, d :: s => !(d == '/') && (tokMatch ts s || tokMatch (.param :: ts) s)

/-- Greedy capture extraction for the compiled regex (JS `([^/]+)` groups are
greedy with backtracking: each group captures the longest prefix that still
lets the rest of the regex match). -/
def tokExtract : List RTok → List Char → Option (List (List Char))
| [], [] => some []
| [], _ :: _ => none
| .lit _ :: _, [] => none
| .lit c :: ts, d :: s => if c = d then tokExtract ts s else none
| .param :: _, [] => none
| .param :: ts, d :: s =>
  if d = '/' then none
  else
    match tokExtract (.param :: ts) s with
    | some (cap :: caps) => some ((d :: cap) :: caps)
    | _ =>
      match tokExtract ts s with
      | some caps => some ([d] :: caps)
      | none => none

namespace Application

/-- `Application.matchRoute(routePath, urlPath)`: the root pattern `/` matches
`/` and the empty path; otherwise the compiled regex (trailing slashes
stripped from the pattern only) is tested against the unmodified URL path. -/
def matchRoute (routePath urlPath : List Char) : Bool :=
  if routePath = ['/'] then urlPath == ['/'] || urlPath == []
  else tokMatch (tokenizePattern (stripTrailingSlashes routePath)) urlPath

/-- `Application.extractParams(routePath, urlPath)`: parameter names from the
route path zipped with the regex captures (empty when the regex does not
match). -/
def extractParams (routePath urlPath : List Char) : List (List Char × List Char) :=
  match tokExtract (tokenizePattern (stripTrailingSlashes routePath)) urlPath with
  | some caps => (paramNames routePath).zip caps
  | none => []

end Application

/-! ## Router matching (src/Router.ts, embedded in the sources after
framework.test.ts: `normalizePath`, `matchRoute`) -/

namespace Router

/-- `Router.normalizePath`: add a leading slash if missing, then remove one
trailing slash unless the whole path is `/`. -/
def normalizePath (p : List Char) : List Char :=
  let q := if p.head? = some '/' then p else '/' :: p
  if 1 < q.length ∧ q.getLast? = some '/' then q.dropLast else q

/-- Pairwise segment matching of the router's for-loop: a route segment
starting with `:` accepts anything, any other segment must be equal; segment
counts must agree. -/
def segSeqMatch : List (List Char) → List (List Char) → Bool
| [], [] => true
| ps :: pss, cs :: css =>
  (if ps.head? = some ':' then true else ps == cs) && segSeqMatch pss css
| _, _ => false

/-- The parameter bindings the router's for-loop collects when the segments
match. -/
def segSeqParams : List (List Char) → List (List Char) → List (List Char × List Char)
| ps :: pss, cs :: css =>
  (if ps.head? = some ':' then [(ps.tail, cs)] else []) ++ segSeqParams pss css
| _, _ => []

/-- The body of the loop in `Router.matchRoute` for one route: the base path
is prepended to the route's pattern, both sides are normalized, then either
the exact-equality fast path (for patterns without `:`) or the segment walk
decides. -/
def routeMatches (basePath routePath reqPath : List Char) : Bool :=
  let full := normalizePath (basePath ++ routePath)
  let nreq := normalizePath reqPath
  (!(routePath.contains ':') && full == nreq) || segSeqMatch (segsOf full) (segsOf nreq)

end Router

/-! ## The dispatcher (src/Application.ts 272-379): chain assembly and the
`next` driver

A handler is modelled as a single-shot state transformer: it runs, updating
the response state, and then either calls `next` (optionally with an error),
throws synchronously (which the driver's `try/catch` turns into `next(err)`),
or returns without calling `next`.  This covers exactly the handler shapes
the claims quantify over; a handler that calls `next` more than once, or
throws after having already called `next`, is outside the model (the source
does not defend against double invocation either). -/

/-- Response-side state, mirroring the parts of `ServerResponse` the source
reads and writes: `statusCode`, `headersSent`, `writableEnded`, plus a count
of `end()` calls (so that a write to an already-closed response is
observable) and the last body written. -/
structure RS where
  statusCode : Nat
  headersSent : Bool
  writableEnded : Bool
  endCount : Nat
  body : Option String
deriving DecidableEq, Repr

/-- A fresh response (Node's default status is 200). -/
def RS.init : RS := ⟨200, false, false, 0, none⟩

/-- `response.status(code)`. -/
def RS.status (st : RS) (c : Nat) : RS := { st with statusCode := c }

/-- `response.send(body)`: sets a header and calls `end(body)`, closing the
stream; a further `send` on the same response is a write after close and is
counted by `endCount`. -/
def RS.sendBody (st : RS) (b : String) : RS :=
  { st with headersSent := true, writableEnded := true,
            endCount := st.endCount + 1, body := some b }

/-- The dispatcher's `isResponseEnded()` helper:
`response.writableEnded || response.headersSent`. -/
def isResponseEnded (st : RS) : Bool := st.writableEnded || st.headersSent

/-- `Application.handleError` (lines 376-379): unconditionally
`res.status(500).send('Internal Server Error')`. -/
def handleError (st : RS) : RS := (st.status 500).sendBody "Internal Server Error"

/-- The `Application`'s default `notFoundHandler` (lines 69-71):
`res.status(404).send('Not Found')`. -/
def defaultNotFound (st : RS) : RS := (st.status 404).sendBody "Not Found"

/-- What a handler does after its body has run. -/
inductive HStep
| callNext (err : Option String)
| thrown (e : String)
| halt
deriving Repr

/-- A single-shot handler: a name (for the observable trace) and its effect. -/
structure Handler where
  name : String
  act : RS → RS × HStep

/-- A handler that only calls `next()`. -/
def mkPass (n : String) : Handler := ⟨n, fun st => (st, .callNext none)⟩

/-- A handler that calls `next(e)`. -/
def mkNextErr (n : String) (e : String) : Handler := ⟨n, fun st => (st, .callNext (some e))⟩

/-- A handler that throws `e` synchronously. -/
def mkThrow (n : String) (e : String) : Handler := ⟨n, fun st => (st, .thrown e)⟩

/-- Driver-generated observable events: handler invocation, error-terminal
invocation with its payload, not-found-terminal invocation. -/
inductive Ev
| inv (name : String)
| errTerm (e : String)
| notFound
deriving DecidableEq, Repr

/-- The `next` driver of `Application.handleRequest` (lines 316-354 and 367),
run from the current position of the chain: an error jumps to `handleError`;
otherwise the next handler is invoked inside `try/catch` (a synchronous
throw becomes `next(err)`); when the chain is exhausted the not-found
terminal runs only if no route matched and the response is still open. -/
def runChain (hasRoute : Bool) (nf : RS → RS) : List Handler → RS → RS × List Ev
| [], st =>
  if !hasRoute && !isResponseEnded st then (nf st, [Ev.notFound]) else (st, [])
| h :: rest, st =>
  match h.act st with
  | (st2, .callNext none) =>
    let r := runChain hasRoute nf rest st2
    (r.1, Ev.inv h.name :: r.2)
  | (st2, .callNext (some e)) => (handleError st2, [Ev.inv h.name, Ev.errTerm e])
  | (st2, .thrown e) => (handleError st2, [Ev.inv h.name, Ev.errTerm e])
  | (st2, .halt) => (st2, [Ev.inv h.name])

/-- Run the chain as long as every handler finishes with a plain `next()`:
`some` of the resulting state and invocation trace when the whole list is
traversed that way, `none` if some handler errors, throws or stops. -/
def runPrefixOk : List Handler → RS → Option (RS × List Ev)
| [], st => some (st, [])
| h :: rest, st =>
  match h.act st with
  | (st2, .callNext none) =>
    match runPrefixOk rest st2 with
    | some (st3, tr) => some (st3, Ev.inv h.name :: tr)
    | none => none
  | _ => none

/-- A registered route of an `Application`. -/
structure RouteA where
  method : List Char
  path : List Char
  handlers : List Handler

/-- The `Application` model: global middleware, the ordered route table, and
the (overridable) not-found terminal. -/
structure AppM where
  middlewares : List Handler
  routes : List RouteA
  notFoundHandler : RS → RS

/-- A fresh `Application` (its `notFoundHandler` field initializer). -/
def AppM.empty : AppM := ⟨[], [], defaultNotFound⟩

/-- `app.use(middleware)`. -/
def AppM.use (app : AppM) (h : Handler) : AppM :=
  { app with middlewares := app.middlewares ++ [h] }

/-- `app.get/post/put/delete/patch(path, ...handlers)` (they differ only in
the stored method string). -/
def AppM.addRoute (app : AppM) (m p : List Char) (hs : List Handler) : AppM :=
  { app with routes := app.routes ++ [⟨m, p, hs⟩] }

/-- `app.setNotFoundHandler(handler)`. -/
def AppM.setNotFoundHandler (app : AppM) (nf : RS → RS) : AppM :=
  { app with notFoundHandler := nf }

/-- The predicate of `handleRequest`'s `routes.find`:
`r.method === req.method && this.matchRoute(r.path, url.pathname)`. -/
def routeMatchesA (m p : List Char) (r : RouteA) : Bool :=
  r.method == m && Application.matchRoute r.path p

/-- `this.routes.find(...)`: first structurally-matching entry. -/
def AppM.findRoute (app : AppM) (m p : List Char) : Option RouteA :=
  app.routes.find? (routeMatchesA m p)

/-- The chain `handleRequest` builds: all global middleware, then the matched
route's handlers (nothing if no route matched). -/
def AppM.assembleChain (app : AppM) (m p : List Char) : List Handler :=
  app.middlewares ++
    (match app.findRoute m p with
     | some r => r.handlers
     | none => [])

/-- `handleRequest` end to end (modulo request/response object creation):
find the route, assemble the chain, drive it. -/
def AppM.handleRequest (app : AppM) (m p : List Char) (st : RS) : RS × List Ev :=
  runChain (app.findRoute m p).isSome app.notFoundHandler (app.assembleChain m p) st

/-! ### The Router's own chain driver and `Router.handle` -/

/-- Result of a `Router.handle` call: either the host continuation `done` was
invoked (with `some` error or without one), or no handler ever called `next`
and `done` was never reached. -/
inductive RDone
| called (err : Option String)
| notCalled
deriving DecidableEq, Repr

/-- The inner `next` closure of `Router.handle` (test-adjacent Router source,
lines 667-684): an error or exhaustion calls `done(err)`; otherwise the next
handler runs inside `try/catch` with a throw routed to `next(error)`. -/
def routerRunChain : List Handler → RS → RS × List Ev × RDone
| [], st => (st, [], .called none)
| h :: rest, st =>
  match h.act st with
  | (st2, .callNext none) =>
    let r := routerRunChain rest st2
    (r.1, Ev.inv h.name :: r.2.1, r.2.2)
  | (st2, .callNext (some e)) => (st2, [Ev.inv h.name], .called (some e))
  | (st2, .thrown e) => (st2, [Ev.inv h.name], .called (some e))
  | (st2, .halt) => (st2, [Ev.inv h.name], .notCalled)

/-- A route registered on a Router. -/
structure RouteR where
  method : List Char
  path : List Char
  handlers : List Handler

/-- The Router model: its base path (set at mount time), its own middleware
list and its own route table. -/
structure RouterM where
  basePath : List Char
  middlewares : List Handler
  routes : List RouteR

/-- `Router.matchRoute`'s route lookup, as the first route whose method
matches and whose pattern (base path prepended) matches the request path. -/
def RouterM.findMatch (r : RouterM) (m p : List Char) : Option RouteR :=
  r.routes.find? (fun rt => rt.method == m && Router.routeMatches r.basePath rt.path p)

/-- `Router.handle(req, res, done)` (lines 639-685): prefix filter (`done()`
on miss), route lookup (`done()` on miss), else the router's own chain of
`[...middlewares, ...route.handlers]`. -/
def RouterM.handle (r : RouterM) (m p : List Char) (st : RS) : RS × List Ev × RDone :=
  if r.basePath ≠ ['/'] ∧ ¬ (List.isPrefixOf r.basePath (Router.normalizePath p)) then
    (st, [], .called none)
  else
    match r.findMatch m p with
    | none => (st, [], .called none)
    | some rt => routerRunChain (r.middlewares ++ rt.handlers) st

/-- The middleware `Application.mount` installs on the host (lines 230-241):
check that the raw pathname starts with the mount path, then delegate to
`router.handle` with the host's `next` as `done`. -/
def mountHandler (mountPath : List Char) (r : RouterM) (m p : List Char) : Handler :=
  ⟨"mounted-router", fun st =>
    if List.isPrefixOf mountPath p then
      match r.handle m p st with
      | (st2, _, .called err) => (st2, .callNext err)
      | (st2, _, .notCalled) => (st2, .halt)
    else (st, .callNext none)⟩

/-! ## Canonical route shapes, used to compare the two matchers (C9)

A pattern in canonical segment form is a `/`-separated sequence of segments,
each either a literal over plain characters or `:name` with a `\w+` name;
a concrete path in canonical form is a `/`-separated sequence of nonempty
`/`-free segments with a leading and no trailing slash. -/

/-- A pattern character the source's regex construction treats literally:
word characters and `-` (regex metacharacters are excluded from the model,
see the header). -/
def plainChar (c : Char) : Prop := c.isAlphanum = true ∨ c = '_' ∨ c = '-'

instance (c : Char) : Decidable (plainChar c) := by
  unfold plainChar; infer_instance

/-- One segment of a route pattern: a literal or a named parameter. -/
inductive PSeg
| lit (s : List Char)
| par (name : List Char)
deriving DecidableEq, Repr

/-- The characters a pattern segment contributes to the pattern string. -/
def psegStr : PSeg → List Char
| .lit s => s
| .par n => ':' :: n

/-- Well-formedness of a pattern segment: literals are nonempty and plain,
parameter names are nonempty word-character runs. -/
def wfPSeg : PSeg → Prop
| .lit s => s ≠ [] ∧ ∀ c ∈ s, plainChar c
| .par n => n ≠ [] ∧ ∀ c ∈ n, wordChar c = true

instance (ps : PSeg) : Decidable (wfPSeg ps) := by
  cases ps <;> (unfold wfPSeg; infer_instance)

/-- The regex tokens one pattern segment compiles to. -/
def segToks : PSeg → List RTok
| .lit s => s.map RTok.lit
| .par _ => [RTok.param]

/-- The regex tokens of a whole canonical pattern (a `/` before each
segment). -/
def tokensOf : List PSeg → List RTok
| [] => []
| ps :: rest => RTok.lit '/' :: (segToks ps ++ tokensOf rest)

/-- The path string of a canonical segment list (`/` when empty). -/
def canonPath (segs : List (List Char)) : List Char :=
  if segs = [] then ['/'] else joinSegs segs

/-- The pattern string of a canonical pattern segment list. -/
def canonPat (psegs : List PSeg) : List Char :=
  canonPath (psegs.map psegStr)

/-- A canonical concrete-path segment: nonempty and `/`-free. -/
def goodSeg (s : List Char) : Prop := s ≠ [] ∧ '/' ∉ s

instance (s : List Char) : Decidable (goodSeg s) := by
  unfold goodSeg; infer_instance

/-- Remove the `.` segments of a segment list (what the normalize stack does
to an input without `..` segments). -/
def dropDots : List (List Char) → List (List Char)
| [] => []
| s :: rest => if s = ['.'] then dropDots rest else s :: dropDots rest

/-! # Lemmas about the chain driver -/

/-- Running a chain whose prefix completes cleanly continues into the rest of
the chain from the state the prefix produced, with the prefix's invocation
trace in front. -/
theorem runChain_append_of_prefixOk (hasRoute : Bool) (nf : RS → RS)
    (pre : List Handler) :
    ∀ (rest : List Handler) (st st1 : RS) (tr : List Ev),
    runPrefixOk pre st = some (st1, tr) →
    runChain hasRoute nf (pre ++ rest) st =
      ((runChain hasRoute nf rest st1).1, tr ++ (runChain hasRoute nf rest st1).2) := by
  induction pre with
  | nil =>
    intro rest st st1 tr h
    simp [runPrefixOk] at h
    obtain ⟨rfl, rfl⟩ := h
    simp
  | cons h0 pre' ih =>
    intro rest st st1 tr hpre
    rcases hact : h0.act st with ⟨st2, step⟩
    cases step with
    | callNext err =>
      cases err with
      | none =>
        rcases hph : runPrefixOk pre' st2 with _ | ⟨st3, tr'⟩ <;>
          simp [runPrefixOk, hact, hph] at hpre
        obtain ⟨rfl, rfl⟩ := hpre
        simp [runChain, hact, ih rest st2 st3 tr' hph]
      | some e => simp [runPrefixOk, hact] at hpre
    | thrown e => simp [runPrefixOk, hact] at hpre
    | halt => simp [runPrefixOk, hact] at hpre

/-- The trace of a clean prefix run consists of invocation events only. -/
theorem runPrefixOk_trace_inv (pre : List Handler) :
    ∀ (st st1 : RS) (tr : List Ev), runPrefixOk pre st = some (st1, tr) →
    ∀ ev ∈ tr, ∃ n, ev = Ev.inv n := by
  induction pre with
  | nil =>
    intro st st1 tr h
    simp [runPrefixOk] at h
    obtain ⟨-, rfl⟩ := h
    simp
  | cons h0 pre' ih =>
    intro st st1 tr hpre
    rcases hact : h0.act st with ⟨st2, step⟩
    cases step with
    | callNext err =>
      cases err with
      | none =>
        rcases hph : runPrefixOk pre' st2 with _ | ⟨st3, tr'⟩ <;>
          simp [runPrefixOk, hact, hph] at hpre
        obtain ⟨-, rfl⟩ := hpre
        intro ev hev
        rcases List.mem_cons.mp hev with rfl | hev'
        · exact ⟨h0.name, rfl⟩
        · exact ih st2 st3 tr' hph ev hev'
      | some e => simp [runPrefixOk, hact] at hpre
    | thrown e => simp [runPrefixOk, hact] at hpre
    | halt => simp [runPrefixOk, hact] at hpre

/-- The not-found event appears in a run's trace only when the whole chain
completed cleanly, no route had matched, and the response was still open at
exhaustion. -/
theorem notFound_mem_run (hasRoute : Bool) (nf : RS → RS) (chain : List Handler) :
    ∀ st : RS, Ev.notFound ∈ (runChain hasRoute nf chain st).2 →
    hasRoute = false ∧ ∃ st' tr, runPrefixOk chain st = some (st', tr) ∧
      isResponseEnded st' = false := by
  induction chain with
  | nil =>
    intro st h
    by_cases hc : (!hasRoute && !isResponseEnded st) = true
    · rw [runChain] at h
      simp only [hc, if_true] at h
      simp only [Bool.and_eq_true, Bool.not_eq_true'] at hc
      exact ⟨hc.1, st, [], rfl, hc.2⟩
    · rw [runChain] at h
      simp only [hc, if_false] at h
      simp at h
  | cons h0 rest ih =>
    intro st h
    rcases hact : h0.act st with ⟨st2, step⟩
    cases step with
    | callNext err =>
      cases err with
      | none =>
        simp only [runChain, hact] at h
        rcases List.mem_cons.mp h with hbad | h'
        · exact absurd hbad (by simp)
        · obtain ⟨h1, st', tr', h2, h3⟩ := ih st2 h'
          refine ⟨h1, st', Ev.inv h0.name :: tr', ?_, h3⟩
          simp [runPrefixOk, hact, h2]
      | some e =>
        simp only [runChain, hact] at h
        simp at h
    | thrown e =>
      simp only [runChain, hact] at h
      simp at h
    | halt =>
      simp only [runChain, hact] at h
      simp at h

/-- Prepending routes none of which matches does not change the result of the
route lookup. -/
theorem find_route_skip (m p : List Char) (A : RouteA) (rest : List RouteA) :
    ∀ l1 : List RouteA, (∀ r ∈ l1, routeMatchesA m p r = false) →
    routeMatchesA m p A = true →
    (l1 ++ A :: rest).find? (routeMatchesA m p) = some A := by
  intro l1
  induction l1 with
  | nil =>
    intro _ hA
    simp [List.find?, hA]
  | cons r0 l1' ih =>
    intro hl hA
    have h0 : routeMatchesA m p r0 = false := hl r0 (by simp)
    simp only [List.cons_append, List.find?, h0]
    exact ih (fun r hr => hl r (by simp [hr])) hA

/-! # Claim theorems -/

/-- C3: with routes registered in the order `... A ... B ...` and a request
whose method and path structurally match both `A` and `B` (and no entry
before `A`), lookup returns `A` — the route table is evaluated in insertion
order and the first structurally-matching entry wins — and dispatch
assembles `A`'s handler chain, never `B`'s. -/
theorem C3_first_route_wins (mws : List Handler) (nfh : RS → RS)
    (l1 l2 l3 : List RouteA) (A B : RouteA) (m p : List Char)
    (hA : routeMatchesA m p A = true) (hB : routeMatchesA m p B = true)
    (hl1 : ∀ r ∈ l1, routeMatchesA m p r = false) :
    AppM.findRoute ⟨mws, l1 ++ A :: (l2 ++ B :: l3), nfh⟩ m p = some A ∧
    AppM.assembleChain ⟨mws, l1 ++ A :: (l2 ++ B :: l3), nfh⟩ m p = mws ++ A.handlers := by
  have hfind := find_route_skip m p A (l2 ++ B :: l3) l1 hl1 hA
  refine ⟨hfind, ?_⟩
  simp [AppM.assembleChain, AppM.findRoute, hfind]

/-- Witness for C3 at a concrete table: a non-matching entry, then `A`, then
an equally-matching `B`; lookup returns `A`. -/
theorem C3_first_route_wins_witness :
    AppM.findRoute ⟨[], [⟨chars "POST", chars "/a", []⟩,
        ⟨chars "GET", chars "/a", [mkPass "A"]⟩,
        ⟨chars "GET", chars "/a", [mkPass "B"]⟩], defaultNotFound⟩
      (chars "GET") (chars "/a")
      = some ⟨chars "GET", chars "/a", [mkPass "A"]⟩ :=
  (C3_first_route_wins [] defaultNotFound [⟨chars "POST", chars "/a", []⟩] [] []
    ⟨chars "GET", chars "/a", [mkPass "A"]⟩ ⟨chars "GET", chars "/a", [mkPass "B"]⟩
    (chars "GET") (chars "/a") (by decide) (by decide)
    (by intro r hr; simp at hr; subst hr; decide)).1

/-- C4: the assembled chain is always the global middleware in registration
order followed by the matched route's handlers (empty when no route
matched); in particular with middlewares `M1`, `M2` and a matching route
handler `R`, the invocation trace is exactly `M1`, `M2`, `R` — the driver is
a pure function of the registration lists, so the order never depends on
timing. -/
theorem C4_chain_assembly_order :
    (∀ (app : AppM) (m p : List Char) (rt : RouteA), app.findRoute m p = some rt →
        app.assembleChain m p = app.middlewares ++ rt.handlers)
    ∧ (∀ (app : AppM) (m p : List Char), app.findRoute m p = none →
        app.assembleChain m p = app.middlewares)
    ∧ (∀ (n1 n2 n3 : String) (mth pat p : List Char) (st : RS) (nfh : RS → RS),
        Application.matchRoute pat p = true →
        AppM.handleRequest ⟨[mkPass n1, mkPass n2], [⟨mth, pat, [mkPass n3]⟩], nfh⟩ mth p st
          = (st, [Ev.inv n1, Ev.inv n2, Ev.inv n3])) := by
  refine ⟨?_, ?_, ?_⟩
  · intro app m p rt h
    simp [AppM.assembleChain, h]
  · intro app m p h
    simp [AppM.assembleChain, h]
  · intro n1 n2 n3 mth pat p st nfh hm
    have hfind : AppM.findRoute ⟨[mkPass n1, mkPass n2], [⟨mth, pat, [mkPass n3]⟩], nfh⟩ mth p
        = some ⟨mth, pat, [mkPass n3]⟩ := by
      simp [AppM.findRoute, List.find?, routeMatchesA, hm]
    simp only [AppM.handleRequest, AppM.assembleChain, hfind]
    simp [runChain, mkPass]

/-- Witness for C4's ordered-execution part at a concrete route and request. -/
theorem C4_chain_assembly_order_witness :
    AppM.handleRequest ⟨[mkPass "M1", mkPass "M2"],
        [⟨chars "GET", chars "/t", [mkPass "R"]⟩], defaultNotFound⟩
      (chars "GET") (chars "/t") RS.init
      = (RS.init, [Ev.inv "M1", Ev.inv "M2", Ev.inv "R"]) :=
  C4_chain_assembly_order.2.2 "M1" "M2" "R" (chars "GET") (chars "/t") (chars "/t")
    RS.init defaultNotFound (by decide)

/-- C5: when the handlers before position `k` complete cleanly and the `k`-th
handler calls `next` with an error, the run ends at the error terminal: the
handlers after `k` are irrelevant to the result (never invoked), the error
terminal fires exactly once with that error, and the default error terminal
leaves a closed response with status 500 and the generic body. -/
theorem C5_error_short_circuit (hasRoute : Bool) (nf : RS → RS)
    (pre post : List Handler) (hk : Handler) (st st1 st2 : RS) (tr : List Ev) (e : String)
    (hpre : runPrefixOk pre st = some (st1, tr))
    (hact : hk.act st1 = (st2, .callNext (some e))) :
    runChain hasRoute nf (pre ++ hk :: post) st
      = (handleError st2, tr ++ [Ev.inv hk.name, Ev.errTerm e])
    ∧ runChain hasRoute nf (pre ++ hk :: post) st = runChain hasRoute nf (pre ++ [hk]) st
    ∧ (runChain hasRoute nf (pre ++ hk :: post) st).2.count (Ev.errTerm e) = 1
    ∧ (runChain hasRoute nf (pre ++ hk :: post) st).1.statusCode = 500
    ∧ (runChain hasRoute nf (pre ++ hk :: post) st).1.body = some "Internal Server Error"
    ∧ (runChain hasRoute nf (pre ++ hk :: post) st).1.writableEnded = true := by
  have hstep : ∀ rest : List Handler, runChain hasRoute nf (hk :: rest) st1
      = (handleError st2, [Ev.inv hk.name, Ev.errTerm e]) := by
    intro rest
    simp [runChain, hact]
  have h1 := runChain_append_of_prefixOk hasRoute nf pre (hk :: post) st st1 tr hpre
  have h2 := runChain_append_of_prefixOk hasRoute nf pre [hk] st st1 tr hpre
  rw [hstep post] at h1
  rw [hstep []] at h2
  have htr : ∀ ev ∈ tr, ∃ n, ev = Ev.inv n := runPrefixOk_trace_inv pre st st1 tr hpre
  have hcount : tr.count (Ev.errTerm e) = 0 := by
    rw [List.count_eq_zero]
    intro hmem
    obtain ⟨n, hn⟩ := htr _ hmem
    exact absurd hn (by simp)
  refine ⟨h1, h1.trans h2.symm, ?_, ?_, ?_, ?_⟩
  · rw [h1]
    simp [List.count_append, hcount, List.count_cons, handleError]
  · rw [h1]; rfl
  · rw [h1]; rfl
  · rw [h1]; rfl

/-- Witness for C5 at a concrete chain `[pass; next(err); pass]`. -/
theorem C5_error_short_circuit_witness :
    runChain true defaultNotFound
        ([mkPass "m1"] ++ mkNextErr "h" "boom" :: [mkPass "z"]) RS.init
      = (handleError RS.init, [Ev.inv "m1"] ++ [Ev.inv "h", Ev.errTerm "boom"]) :=
  (C5_error_short_circuit true defaultNotFound [mkPass "m1"] [mkPass "z"]
    (mkNextErr "h" "boom") RS.init RS.init RS.init [Ev.inv "m1"] "boom" rfl rfl).1

/-- C6: a handler that throws synchronously is driven exactly like one that
calls `next` with the thrown value, in the Application's chain driver and in
the Router's chain driver alike. -/
theorem C6_throw_equals_next_err (hasRoute : Bool) (nf : RS → RS)
    (pre post : List Handler) (n : String) (f : RS → RS) (e : String) (st : RS) :
    runChain hasRoute nf (pre ++ (⟨n, fun s => (f s, .thrown e)⟩ : Handler) :: post) st
      = runChain hasRoute nf (pre ++ (⟨n, fun s => (f s, .callNext (some e))⟩ : Handler) :: post) st
    ∧ routerRunChain (pre ++ (⟨n, fun s => (f s, .thrown e)⟩ : Handler) :: post) st
      = routerRunChain (pre ++ (⟨n, fun s => (f s, .callNext (some e))⟩ : Handler) :: post) st := by
  induction pre generalizing st with
  | nil => constructor <;> simp [runChain, routerRunChain]
  | cons h0 pre' ih =>
    constructor <;>
    · rcases hact : h0.act st with ⟨st2, step⟩
      cases step with
      | callNext err =>
        cases err with
        | none => simp [runChain, routerRunChain, hact, (ih st2).1, (ih st2).2]
        | some e2 => simp [runChain, routerRunChain, hact]
      | thrown e2 => simp [runChain, routerRunChain, hact]
      | halt => simp [runChain, routerRunChain, hact]

/-- C7: the not-found terminal runs exactly when the chain is exhausted
without an error, no route matched, and the response is still open (if a
route matched, or the response was closed, exhaustion does nothing); the
default terminal produces a closed 404 response with the plain fallback
body; a fresh Application starts with the default, and re-registration
overwrites it, last registration winning. -/
theorem C7_not_found_terminal :
    (∀ (hasRoute : Bool) (nf : RS → RS) (chain : List Handler) (st st' : RS) (tr : List Ev),
        runPrefixOk chain st = some (st', tr) →
        runChain hasRoute nf chain st =
          if !hasRoute && !isResponseEnded st' then (nf st', tr ++ [Ev.notFound]) else (st', tr))
    ∧ (∀ (hasRoute : Bool) (nf : RS → RS) (chain : List Handler) (st : RS),
        Ev.notFound ∈ (runChain hasRoute nf chain st).2 →
        hasRoute = false ∧ ∃ st' tr, runPrefixOk chain st = some (st', tr) ∧
          isResponseEnded st' = false)
    ∧ (∀ st : RS, defaultNotFound st =
        { st with statusCode := 404, headersSent := true, writableEnded := true,
                  endCount := st.endCount + 1, body := some "Not Found" })
    ∧ AppM.empty.notFoundHandler = defaultNotFound
    ∧ (∀ (app : AppM) (f g : RS → RS),
        ((app.setNotFoundHandler f).setNotFoundHandler g).notFoundHandler = g) := by
  refine ⟨?_, fun hasRoute nf chain st => notFound_mem_run hasRoute nf chain st, ?_, rfl, ?_⟩
  · intro hasRoute nf chain st st' tr hpre
    have h := runChain_append_of_prefixOk hasRoute nf chain [] st st' tr hpre
    rw [List.append_nil] at h
    rw [h, runChain]
    by_cases hc : (!hasRoute && !isResponseEnded st') = true
    · simp [hc]
    · simp [hc]
  · intro st
    simp [defaultNotFound, RS.sendBody, RS.status]
  · intro app f g
    rfl

/-- Witness for C7: a clean one-handler chain with no route and an open
response runs the not-found terminal once, at the end. -/
theorem C7_not_found_terminal_witness :
    runChain false defaultNotFound [mkPass "a"] RS.init
      = (defaultNotFound RS.init, [Ev.inv "a"] ++ [Ev.notFound]) := by
  have h := C7_not_found_terminal.1 false defaultNotFound [mkPass "a"] RS.init RS.init
    [Ev.inv "a"] rfl
  simpa using h

/-- C8: when a request passes a mounted router's base-path filter but no route
in the router's table matches it, `Router.handle` calls the host continuation
with no error and an untouched response, so the host's dispatch continues
with the remaining middleware and routes — the router invokes no not-found
terminal of its own and produces no 404. -/
theorem C8_router_miss_falls_through (r : RouterM) (m p : List Char) (st : RS)
    (hpre : r.basePath = ['/'] ∨ List.isPrefixOf r.basePath (Router.normalizePath p) = true)
    (hmiss : r.findMatch m p = none) :
    r.handle m p st = (st, [], .called none)
    ∧ ∀ (mountPath : List Char) (rest : List Handler) (hasRoute : Bool) (nf : RS → RS),
        List.isPrefixOf mountPath p = true →
        runChain hasRoute nf (mountHandler mountPath r m p :: rest) st
          = ((runChain hasRoute nf rest st).1,
             Ev.inv "mounted-router" :: (runChain hasRoute nf rest st).2) := by
  have hhandle : r.handle m p st = (st, [], .called none) := by
    rw [RouterM.handle]
    rcases hpre with h | h
    · simp [h, hmiss]
    · simp [h, hmiss]
  refine ⟨hhandle, ?_⟩
  intro mountPath rest hasRoute nf hmp
  simp [runChain, mountHandler, hmp, hhandle]

/-- Witness for C8 at a concrete router whose only route does not match. -/
theorem C8_router_miss_falls_through_witness :
    RouterM.handle ⟨chars "/api", [], [⟨chars "GET", chars "/x", []⟩]⟩
      (chars "GET") (chars "/api/zzz") RS.init = (RS.init, [], .called none) :=
  (C8_router_miss_falls_through ⟨chars "/api", [], [⟨chars "GET", chars "/x", []⟩]⟩
    (chars "GET") (chars "/api/zzz") RS.init
    (Or.inr (by decide)) (by rfl)).1

/-- C10: `handleError` is unconditional — whatever the prior response state
(headers already sent, stream already ended), it sets status 500 and writes
the generic body, performing a further `end()`; a handler that has already
sent a response and then signals an error therefore causes a second write on
the closed response (final `endCount` 2) instead of being suppressed. -/
theorem C10_error_terminal_unconditional (st : RS) (e : String) (b : String)
    (nf : RS → RS) (hasRoute : Bool) :
    handleError st = { st with statusCode := 500, headersSent := true, writableEnded := true,
                               endCount := st.endCount + 1, body := some "Internal Server Error" }
    ∧ (handleError st).endCount = st.endCount + 1
    ∧ (runChain hasRoute nf
        [(⟨"h", fun s => (s.sendBody b, .callNext (some e))⟩ : Handler)] st).1.endCount
        = st.endCount + 2
    ∧ (runChain hasRoute nf
        [(⟨"h", fun s => (s.sendBody b, .callNext (some e))⟩ : Handler)] st).1.statusCode = 500 := by
  refine ⟨rfl, rfl, ?_, ?_⟩ <;> simp [runChain, handleError, RS.sendBody, RS.status]

/-! # Lemmas about path splitting and normalization (for the static server) -/

/-- Unfolding `splitSlash` at a leading slash. -/
theorem splitSlash_cons_slash (p : List Char) : splitSlash ('/' :: p) = [] :: splitSlash p := by
  rw [splitSlash]
  simp

/-- Unfolding `splitSlash` at a leading non-slash character. -/
theorem splitSlash_cons_ne (c : Char) (p : List Char) (s : List Char) (ss : List (List Char))
    (hc : ¬ c = '/') (h : splitSlash p = s :: ss) :
    splitSlash (c :: p) = (c :: s) :: ss := by
  rw [splitSlash]
  simp [hc, h]

/-- `splitSlash` never returns the empty list. -/
theorem splitSlash_ne_nil (p : List Char) : splitSlash p ≠ [] := by
  cases p with
  | nil => simp [splitSlash]
  | cons c rest =>
    rw [splitSlash]
    by_cases h : c = '/'
    · simp [h]
    · simp only [h, if_false]
      rcases hs : splitSlash rest with _ | ⟨s, ss⟩ <;> simp

/-- The head piece of `splitSlash` is a prefix of the input. -/
theorem splitSlash_head_pre (p : List Char) :
    ∀ h t, splitSlash p = h :: t → ∃ r, p = h ++ r := by
  induction p with
  | nil =>
    intro h t hs
    simp [splitSlash] at hs
    exact ⟨[], by simp [hs.1.symm]⟩
  | cons c rest ih =>
    intro h t hs
    rw [splitSlash] at hs
    by_cases hc : c = '/'
    · simp [hc] at hs
      exact ⟨c :: rest, by simp [hs.1.symm]⟩
    · simp only [hc, if_false] at hs
      rcases hrest : splitSlash rest with _ | ⟨s, ss⟩
      · exact absurd hrest (splitSlash_ne_nil rest)
      · rw [hrest] at hs
        obtain ⟨rfl, -⟩ := List.cons.inj hs
        obtain ⟨r, hr⟩ := ih s ss hrest
        exact ⟨r, by simp [hr]⟩

/-- No piece of `splitSlash` contains a slash. -/
theorem splitSlash_no_slash (p : List Char) : ∀ s ∈ splitSlash p, '/' ∉ s := by
  induction p with
  | nil =>
    intro s hs
    simp [splitSlash] at hs
    simp [hs]
  | cons c rest ih =>
    intro s hs
    rw [splitSlash] at hs
    by_cases hc : c = '/'
    · simp only [hc, if_true, List.mem_cons] at hs
      rcases hs with rfl | hs
      · simp
      · exact ih s hs
    · simp only [hc, if_false] at hs
      rcases hrest : splitSlash rest with _ | ⟨s0, ss⟩
      · exact absurd hrest (splitSlash_ne_nil rest)
      · rw [hrest] at hs
        rcases List.mem_cons.mp hs with rfl | hs'
        · intro hmem
          rcases List.mem_cons.mp hmem with h | h
          · exact hc h.symm
          · exact ih s0 (by simp [hrest]) h
        · exact ih s (by simp [hrest, hs'])

/-- If the input has no two consecutive dots, no piece of `splitSlash` is the
segment `..`. -/
theorem splitSlash_no_dotdot (p : List Char) (hp : hasDotDot p = false) :
    ∀ s ∈ splitSlash p, s ≠ ['.', '.'] := by
  induction p with
  | nil =>
    intro s hs
    simp [splitSlash] at hs
    simp [hs]
  | cons c rest ih =>
    intro s hs
    have hrest_dd : hasDotDot rest = false := by
      cases rest with
      | nil => rfl
      | cons b r2 =>
        rw [hasDotDot] at hp
        exact (Bool.or_eq_false_iff.mp hp).2
    rw [splitSlash] at hs
    by_cases hc : c = '/'
    · simp only [hc, if_true, List.mem_cons] at hs
      rcases hs with rfl | hs
      · simp
      · exact ih hrest_dd s hs
    · simp only [hc, if_false] at hs
      rcases hrest : splitSlash rest with _ | ⟨s0, ss⟩
      · exact absurd hrest (splitSlash_ne_nil rest)
      · rw [hrest] at hs
        rcases List.mem_cons.mp hs with rfl | hs'
        · intro heq
          obtain ⟨rfl, h0⟩ := List.cons.inj heq
          obtain ⟨r, hr⟩ := splitSlash_head_pre rest s0 ss hrest
          rw [h0] at hr
          rw [hr] at hp
          simp [hasDotDot] at hp
        · exact ih hrest_dd s (by simp [hrest, hs'])

/-- `splitSlash` distributes over an append with a separating slash. -/
theorem splitSlash_append (a b : List Char) :
    splitSlash (a ++ '/' :: b) = splitSlash a ++ splitSlash b := by
  induction a with
  | nil => simp [splitSlash_cons_slash, splitSlash]
  | cons c rest ih =>
    rw [List.cons_append]
    by_cases hc : c = '/'
    · subst hc
      rw [splitSlash_cons_slash, splitSlash_cons_slash, ih]
      rfl
    · rcases hrest : splitSlash rest with _ | ⟨s, ss⟩
      · exact absurd hrest (splitSlash_ne_nil rest)
      · have hab : splitSlash (rest ++ '/' :: b) = s :: (ss ++ splitSlash b) := by
          rw [ih, hrest]
          rfl
        rw [splitSlash_cons_ne c _ s (ss ++ splitSlash b) hc hab,
            splitSlash_cons_ne c rest s ss hc hrest]
        rfl

/-- `segsOf` distributes over an append with a separating slash. -/
theorem segsOf_append (a b : List Char) : segsOf (a ++ '/' :: b) = segsOf a ++ segsOf b := by
  simp [segsOf, splitSlash_append]

/-- A leading slash does not change the nonempty segments. -/
theorem segsOf_cons_slash (p : List Char) : segsOf ('/' :: p) = segsOf p := by
  simp [segsOf, splitSlash]

/-- A trailing slash does not change the nonempty segments. -/
theorem segsOf_concat_slash (p : List Char) : segsOf (p ++ ['/']) = segsOf p := by
  have h := segsOf_append p []
  simpa [segsOf, splitSlash] using h

/-- A slash-free list is its own single split piece. -/
theorem splitSlash_of_no_slash (s : List Char) (h : '/' ∉ s) : splitSlash s = [s] := by
  induction s with
  | nil => simp [splitSlash]
  | cons c rest ih =>
    have hc : ¬ c = '/' := fun hc => h (by simp [hc])
    rw [splitSlash]
    simp only [hc, if_false]
    rw [ih (fun hr => h (by simp [hr]))]

/-- A nonempty slash-free list is its own single nonempty segment. -/
theorem segsOf_single (s : List Char) (h : goodSeg s) : segsOf s = [s] := by
  obtain ⟨h1, h2⟩ := h
  simp [segsOf, splitSlash_of_no_slash s h2, List.isEmpty_iff, h1]

/-- The nonempty segments of an intercalated segment list are the segments
themselves. -/
theorem segsOf_intercal (out : List (List Char)) (h : ∀ s ∈ out, goodSeg s) :
    segsOf (intercalSlash out) = out := by
  induction out with
  | nil => simp [intercalSlash, segsOf, splitSlash]
  | cons s rest ih =>
    cases rest with
    | nil => exact segsOf_single s (h s (by simp))
    | cons s2 rest2 =>
      have hstep : intercalSlash (s :: s2 :: rest2) = s ++ '/' :: intercalSlash (s2 :: rest2) :=
        rfl
      rw [hstep, segsOf_append]
      rw [segsOf_single s (h s (by simp)), ih (fun x hx => h x (by simp [hx]))]
      rfl

/-- Every nonempty segment of any path is nonempty and slash-free. -/
theorem mem_segsOf_good (p : List Char) : ∀ s ∈ segsOf p, goodSeg s := by
  intro s hs
  simp only [segsOf, List.mem_filter] at hs
  refine ⟨?_, splitSlash_no_slash p s hs.1⟩
  intro h
  rw [h] at hs
  simp at hs

/-- Nonempty segments of a path without consecutive dots are never `..`. -/
theorem mem_segsOf_no_dotdot (p : List Char) (hp : hasDotDot p = false) :
    ∀ s ∈ segsOf p, s ≠ ['.', '.'] := by
  intro s hs
  simp only [segsOf, List.mem_filter] at hs
  exact splitSlash_no_dotdot p hp s hs.1

/-- Members of `dropDots` come from the input and are not `.`. -/
theorem mem_dropDots (l : List (List Char)) : ∀ s ∈ dropDots l, s ∈ l ∧ s ≠ ['.'] := by
  induction l with
  | nil => simp [dropDots]
  | cons x rest ih =>
    intro s hs
    rw [dropDots] at hs
    by_cases hx : x = ['.']
    · rw [if_pos hx] at hs
      obtain ⟨h1, h2⟩ := ih s hs
      exact ⟨by simp [h1], h2⟩
    · rw [if_neg hx] at hs
      rcases List.mem_cons.mp hs with rfl | hs'
      · exact ⟨by simp, hx⟩
      · obtain ⟨h1, h2⟩ := ih s hs'
        exact ⟨by simp [h1], h2⟩

/-- `dropDots` is the identity on lists without `.` segments. -/
theorem dropDots_id (l : List (List Char)) (h : ∀ s ∈ l, s ≠ ['.']) : dropDots l = l := by
  induction l with
  | nil => rfl
  | cons x rest ih =>
    rw [dropDots, if_neg (h x (by simp))]
    rw [ih (fun s hs => h s (by simp [hs]))]

/-- Dropping the last element only removes elements. -/
theorem mem_of_mem_dropLast {α : Type} (l : List α) : ∀ s ∈ l.dropLast, s ∈ l := by
  intro s hs
  cases hl : l.getLast? with
  | none =>
    rw [List.getLast?_eq_none_iff] at hl
    rw [hl] at hs
    simp at hs
  | some a =>
    have := List.dropLast_append_getLast? a hl
    rw [← this]
    exact List.mem_append_left _ hs

/-- Every segment the normalize stack holds comes from the accumulator, the
input, or is a literal `..`. -/
theorem mem_normStack (isAbs : Bool) (segs : List (List Char)) :
    ∀ (acc : List (List Char)) (s : List Char), s ∈ normStack isAbs acc segs →
      s ∈ acc ∨ s ∈ segs ∨ s = ['.', '.'] := by
  induction segs with
  | nil =>
    intro acc s hs
    rw [normStack] at hs
    exact Or.inl hs
  | cons seg rest ih =>
    intro acc s hs
    rw [normStack] at hs
    rcases ih (normStep isAbs acc seg) s hs with hstep | hrest | hdd
    · rw [normStep] at hstep
      by_cases h1 : seg = ['.']
      · rw [if_pos h1] at hstep
        exact Or.inl hstep
      · rw [if_neg h1] at hstep
        by_cases h2 : seg = ['.', '.']
        · rw [if_pos h2] at hstep
          by_cases h3 : acc ≠ [] ∧ acc.getLast? ≠ some ['.', '.']
          · rw [if_pos h3] at hstep
            exact Or.inl (mem_of_mem_dropLast acc s hstep)
          · rw [if_neg h3] at hstep
            by_cases h4 : isAbs = true
            · rw [if_pos h4] at hstep
              exact Or.inl hstep
            · rw [if_neg h4] at hstep
              rcases List.mem_append.mp hstep with h | h
              · exact Or.inl h
              · simp at h
                exact Or.inr (Or.inr (h.trans h2))
        · rw [if_neg h2] at hstep
          rcases List.mem_append.mp hstep with h | h
          · exact Or.inl h
          · simp at h
            exact Or.inr (Or.inl (by simp [h]))
    · exact Or.inr (Or.inl (by simp [hrest]))
    · exact Or.inr (Or.inr hdd)

/-- Segments that are neither `.` nor `..` are simply pushed through the
normalize stack. -/
theorem normStack_front (isAbs : Bool) (pre : List (List Char))
    (h : ∀ s ∈ pre, s ≠ ['.'] ∧ s ≠ ['.', '.']) (segs : List (List Char)) :
    ∀ acc, normStack isAbs acc (pre ++ segs) = normStack isAbs (acc ++ pre) segs := by
  induction pre with
  | nil => intro acc; simp
  | cons x pre' ih =>
    intro acc
    obtain ⟨h1, h2⟩ := h x (by simp)
    rw [List.cons_append, normStack, normStep, if_neg h1, if_neg h2]
    rw [ih (fun s hs => h s (by simp [hs])) (acc ++ [x])]
    simp

/-- On an input without `..` segments the normalize stack appends the input
minus its `.` segments. -/
theorem normStack_no_dotdot (isAbs : Bool) (segs : List (List Char))
    (h : ∀ s ∈ segs, s ≠ ['.', '.']) :
    ∀ acc, normStack isAbs acc segs = acc ++ dropDots segs := by
  induction segs with
  | nil => intro acc; simp [normStack, dropDots]
  | cons x rest ih =>
    intro acc
    rw [normStack, normStep, dropDots]
    by_cases h1 : x = ['.']
    · rw [if_pos h1, if_pos h1]
      exact ih (fun s hs => h s (by simp [hs])) acc
    · rw [if_neg h1, if_neg (h x (by simp)), if_neg h1]
      rw [ih (fun s hs => h s (by simp [hs])) (acc ++ [x])]
      simp

/-- Closed form of `pathNormalize` on an absolute path. -/
theorem pathNormalize_abs_eq (p : List Char) (h : p.head? = some '/') :
    pathNormalize p =
      (if normStack true [] (segsOf p) = [] then ['/']
       else '/' :: (intercalSlash (normStack true [] (segsOf p))
              ++ (if p.getLast? = some '/' then ['/'] else []))) := by
  have hp : p ≠ [] := by intro he; rw [he] at h; simp at h
  rw [pathNormalize, if_neg hp]
  by_cases hout : normStack true [] (segsOf p) = [] <;>
    by_cases htr : p.getLast? = some '/' <;>
      simp [h, htr, hout, beq_iff_eq]

/-- Normalizing an absolute path yields an absolute path. -/
theorem pathNormalize_head (p : List Char) (h : p.head? = some '/') :
    (pathNormalize p).head? = some '/' := by
  rw [pathNormalize_abs_eq p h]
  by_cases hout : normStack true [] (segsOf p) = [] <;> simp [hout]

/-- The nonempty segments of the normalization of an absolute path are
exactly the output of the normalize stack over the input's segments. -/
theorem segsOf_pathNormalize (p : List Char) (h : p.head? = some '/') :
    segsOf (pathNormalize p) = normStack true [] (segsOf p) := by
  have hgood : ∀ s ∈ normStack true [] (segsOf p), goodSeg s := by
    intro s hs
    rcases mem_normStack true (segsOf p) [] s hs with h0 | h0 | h0
    · simp at h0
    · exact mem_segsOf_good p s h0
    · rw [h0]; exact ⟨by simp, by decide⟩
  rw [pathNormalize_abs_eq p h]
  by_cases hout : normStack true [] (segsOf p) = []
  · rw [if_pos hout, hout]
    rfl
  · rw [if_neg hout]
    by_cases htr : p.getLast? = some '/'
    · rw [if_pos htr, segsOf_cons_slash, segsOf_concat_slash]
      exact segsOf_intercal _ hgood
    · rw [if_neg htr, segsOf_cons_slash, List.append_nil]
      exact segsOf_intercal _ hgood

/-- `hasDotDot` is monotone under taking the tail. -/
theorem hasDotDot_tail (l : List Char) (h : hasDotDot l = false) :
    hasDotDot l.tail = false := by
  cases l with
  | nil => rfl
  | cons c t =>
    cases t with
    | nil => rfl
    | cons b r =>
      rw [hasDotDot] at h
      exact (Bool.or_eq_false_iff.mp h).2

/-- Whenever `serveStatic`'s sanitizer resolves a request path, the result
lies below the root: its segments are the root's segments followed by
segments that are never `..` (nor `.`, nor empty), and it is absolute. -/
theorem staticResolve_within (rsegs : List (List Char)) (root : List Char)
    (hroot : root = '/' :: intercalSlash rsegs)
    (hmem : ∀ s ∈ rsegs, goodSeg s ∧ s ≠ ['.', '.'] ∧ s ≠ ['.'])
    (pathname abs : List Char)
    (hres : staticResolve root pathname = .resolved abs) :
    ∃ extra, segsOf abs = rsegs ++ extra ∧
      (∀ s ∈ extra, goodSeg s ∧ s ≠ ['.', '.'] ∧ s ≠ ['.']) ∧
      abs.head? = some '/' := by
  have hhead : root.head? = some '/' := by rw [hroot]; rfl
  have hrne : root ≠ [] := by rw [hroot]; simp
  have hsr : segsOf root = rsegs := by
    rw [hroot, segsOf_cons_slash]
    exact segsOf_intercal rsegs (fun s hs => (hmem s hs).1)
  have hres' : (if hasDotDot (staticFilePath pathname) then StaticStep.traversalError
      else .resolved (pathJoin root
        (if (staticFilePath pathname).head? = some '/' then (staticFilePath pathname).tail
         else staticFilePath pathname))) = .resolved abs := hres
  by_cases hdd : hasDotDot (staticFilePath pathname) = true
  · rw [if_pos hdd] at hres'
    exact absurd hres' (by simp)
  · have hddf : hasDotDot (staticFilePath pathname) = false := by
      simpa using hdd
    rw [if_neg (by simp [hddf])] at hres'
    set fp2 : List Char := (if (staticFilePath pathname).head? = some '/'
        then (staticFilePath pathname).tail else staticFilePath pathname) with hfp2
    have habs : abs = pathJoin root fp2 := by
      have := StaticStep.resolved.inj hres'
      exact this.symm
    have hdd2 : hasDotDot fp2 = false := by
      rw [hfp2]
      by_cases hh : (staticFilePath pathname).head? = some '/'
      · rw [if_pos hh]
        exact hasDotDot_tail _ hddf
      · rw [if_neg hh]
        exact hddf
    have hfpgood : ∀ s ∈ segsOf fp2, goodSeg s ∧ s ≠ ['.', '.'] :=
      fun s hs => ⟨mem_segsOf_good fp2 s hs, mem_segsOf_no_dotdot fp2 hdd2 s hs⟩
    by_cases hfe : fp2 = []
    · have hj : pathJoin root fp2 = pathNormalize root := by
        rw [pathJoin, if_neg (by simp [hrne]), if_neg hrne, if_pos hfe]
      refine ⟨[], ?_, by simp, ?_⟩
      · rw [habs, hj, segsOf_pathNormalize root hhead, hsr]
        rw [normStack_no_dotdot true rsegs (fun s hs => (hmem s hs).2.1) []]
        rw [dropDots_id rsegs (fun s hs => (hmem s hs).2.2)]
        simp
      · rw [habs, hj]
        exact pathNormalize_head root hhead
    · have hj : pathJoin root fp2 = pathNormalize (root ++ '/' :: fp2) := by
        rw [pathJoin, if_neg (by simp [hrne]), if_neg hrne, if_neg hfe]
      have hhead2 : (root ++ '/' :: fp2).head? = some '/' := by
        rw [hroot]
        rfl
      refine ⟨dropDots (segsOf fp2), ?_, ?_, ?_⟩
      · rw [habs, hj, segsOf_pathNormalize _ hhead2, segsOf_append, hsr]
        rw [normStack_front true rsegs (fun s hs => ⟨(hmem s hs).2.2, (hmem s hs).2.1⟩)
            (segsOf fp2) []]
        rw [List.nil_append]
        rw [normStack_no_dotdot true (segsOf fp2) (fun s hs => (hfpgood s hs).2) rsegs]
      · intro s hs
        obtain ⟨h1, h2⟩ := mem_dropDots (segsOf fp2) s hs
        exact ⟨(hfpgood s h1).1, (hfpgood s h1).2, h2⟩
      · rw [habs, hj]
        exact pathNormalize_head _ hhead2

/-- Joining one well-formed segment onto an absolute path whose segments are
free of `.` and `..` appends exactly that segment. -/
theorem pathJoin_seg_segs (abs idx : List Char)
    (habs : abs.head? = some '/')
    (hsegs : ∀ s ∈ segsOf abs, s ≠ ['.'] ∧ s ≠ ['.', '.'])
    (hidx : goodSeg idx ∧ idx ≠ ['.', '.'] ∧ idx ≠ ['.']) :
    segsOf (pathJoin abs idx) = segsOf abs ++ [idx] := by
  have hane : abs ≠ [] := by intro he; rw [he] at habs; simp at habs
  have hine : idx ≠ [] := hidx.1.1
  have hj : pathJoin abs idx = pathNormalize (abs ++ '/' :: idx) := by
    rw [pathJoin, if_neg (by simp [hane]), if_neg hane, if_neg hine]
  have hhead2 : (abs ++ '/' :: idx).head? = some '/' := by
    cases abs with
    | nil => exact absurd rfl hane
    | cons c t =>
      simp at habs
      simp [habs]
  rw [hj, segsOf_pathNormalize _ hhead2, segsOf_append, segsOf_single idx hidx.1]
  rw [normStack_front true (segsOf abs) hsegs [idx] []]
  rw [List.nil_append]
  rw [normStack_no_dotdot true [idx] (by intro s hs; simp at hs; rw [hs]; exact hidx.2.1)
      (segsOf abs)]
  rw [dropDots_id [idx] (by intro s hs; simp at hs; rw [hs]; exact hidx.2.2)]

/-- C1 counterexample: the request path `/../secret` — whose percent-decoded
form contains the parent-traversal segment `..` — is not signaled as a
traversal error; `path.normalize` silently clamps it to `/secret` before the
`includes('..')` check, so the middleware resolves it inside the root. -/
theorem C1_traversal_clamped_counterexample :
    staticResolve (chars "/srv/public") (chars "/../secret")
      = .resolved (chars "/srv/public/secret")
    ∧ staticResolve (chars "/srv/public") (chars "/../secret") ≠ .traversalError := by
  decide

/-- C1 amended: every filesystem access `serveStatic` performs (the stat of
the resolved path, the stat of the directory index file, and the path opened
by `serveFile`) is on a path inside the resolved absolute root directory —
no request ever causes a read outside root.  However, an escaping
percent-decoded path is not necessarily signaled: a traversal error is
raised exactly when the decoded, `path.normalize`d path still contains two
consecutive dots; absolute parent-traversal paths such as `/../secret` are
silently clamped into root by the normalization instead. -/
theorem C1_static_sandbox (rsegs : List (List Char)) (root : List Char)
    (hroot : root = '/' :: intercalSlash rsegs)
    (hmem : ∀ s ∈ rsegs, goodSeg s ∧ s ≠ ['.', '.'] ∧ s ≠ ['.']) :
    (∀ (fsys : List Char → FsNode) (index : Option (List Char)) (dot : Dotfiles)
        (method pathname : List Char),
        (∀ i, index = some i → goodSeg i ∧ i ≠ ['.', '.'] ∧ i ≠ ['.']) →
        ∀ p ∈ staticAccessPaths fsys root index dot method pathname, withinRoot rsegs p)
    ∧ (∀ pathname : List Char,
        staticResolve root pathname = .traversalError ↔
          hasDotDot (staticFilePath pathname) = true) := by
  constructor
  · intro fsys index dot method pathname hindex p hp
    rw [staticAccessPaths] at hp
    by_cases hm : method ≠ chars "GET" ∧ method ≠ chars "HEAD"
    · rw [if_pos hm] at hp
      simp at hp
    · rw [if_neg hm] at hp
      rcases hsr : staticResolve root pathname with _ | abs
      · rw [hsr] at hp
        simp at hp
      · simp only [hsr] at hp
        obtain ⟨extra, heq, hextra, hhead⟩ :=
          staticResolve_within rsegs root hroot hmem pathname abs hsr
        have habs_within : withinRoot rsegs abs :=
          ⟨extra, heq, fun s hs => (hextra s hs).2.1⟩
        by_cases hdot : (pathBasename abs).head? = some '.' ∧ dot ≠ .allow
        · rw [if_pos hdot] at hp
          simp at hp
        · rw [if_neg hdot] at hp
          rcases List.mem_cons.mp hp with rfl | hp'
          · exact habs_within
          · have hcase : p = abs ∨ ∃ idx, index = some idx ∧ p = pathJoin abs idx := by
              rcases hfs : fsys abs with _ | _ | _ | _ | _ <;> rw [hfs] at hp'
              · simp at hp'
              · simp at hp'
              · simp at hp'
                exact Or.inl hp'
              · rcases hidx : index with _ | idx <;> rw [hidx] at hp'
                · simp at hp'
                · rcases List.mem_cons.mp hp' with rfl | hp''
                  · exact Or.inr ⟨idx, rfl, rfl⟩
                  · by_cases hf : fsys (pathJoin abs idx) = FsNode.file
                    · rw [if_pos hf] at hp''
                      simp at hp''
                      exact Or.inr ⟨idx, rfl, hp''⟩
                    · rw [if_neg hf] at hp''
                      simp at hp''
              · simp at hp'
            rcases hcase with rfl | ⟨idx, hidxeq, rfl⟩
            · exact habs_within
            · have hidxw := hindex idx hidxeq
              have hsegs_abs : ∀ s ∈ segsOf abs, s ≠ ['.'] ∧ s ≠ ['.', '.'] := by
                rw [heq]
                intro s hs
                rcases List.mem_append.mp hs with h | h
                · exact ⟨(hmem s h).2.2, (hmem s h).2.1⟩
                · exact ⟨(hextra s h).2.2, (hextra s h).2.1⟩
              refine ⟨extra ++ [idx], ?_, ?_⟩
              · rw [pathJoin_seg_segs abs idx hhead hsegs_abs hidxw, heq, List.append_assoc]
              · intro s hs
                rcases List.mem_append.mp hs with h | h
                · exact (hextra s h).2.1
                · simp at h
                  rw [h]
                  exact hidxw.2.1
  · intro pathname
    have hres' : staticResolve root pathname
        = (if hasDotDot (staticFilePath pathname) then StaticStep.traversalError
           else .resolved (pathJoin root
             (if (staticFilePath pathname).head? = some '/' then (staticFilePath pathname).tail
              else staticFilePath pathname))) := rfl
    by_cases hdd : hasDotDot (staticFilePath pathname) = true
    · rw [hres', if_pos hdd]
      simp [hdd]
    · rw [hres', if_neg (by simpa using hdd)]
      simp
      simpa using hdd

/-- Witness for C1 at the root `/srv/public` with index `index.html`: the
index-file path the middleware stats for the request `/css/app.css` (the
resolved path reported as a directory) is inside the root. -/
theorem C1_static_sandbox_witness :
    withinRoot [chars "srv", chars "public"] (chars "/srv/public/css/app.css/index.html") :=
  (C1_static_sandbox [chars "srv", chars "public"] (chars "/srv/public")
      (by decide) (by decide)).1
    (fun _ => FsNode.dir) (some (chars "index.html")) Dotfiles.ignore
    (chars "GET") (chars "/css/app.css")
    (by intro i hi; cases hi; decide)
    (chars "/srv/public/css/app.css/index.html")
    (by decide)

/-! # Lemmas comparing the Router's matcher with the Application's (C9) -/

/-- A word character is not a slash. -/
theorem wordChar_ne_slash (c : Char) (h : wordChar c = true) : c ≠ '/' := by
  intro he
  rw [he] at h
  exact absurd h (by decide)

/-- A word character is not a colon. -/
theorem wordChar_ne_colon (c : Char) (h : wordChar c = true) : c ≠ ':' := by
  intro he
  rw [he] at h
  exact absurd h (by decide)

/-- A plain pattern character is not a slash. -/
theorem plainChar_ne_slash (c : Char) (h : plainChar c) : c ≠ '/' := by
  intro he
  rw [he] at h
  exact absurd h (by decide)

/-- A plain pattern character is not a colon. -/
theorem plainChar_ne_colon (c : Char) (h : plainChar c) : c ≠ ':' := by
  intro he
  rw [he] at h
  exact absurd h (by decide)

/-- The string of a well-formed pattern segment is a nonempty slash-free
segment. -/
theorem psegStr_good (ps : PSeg) (h : wfPSeg ps) : goodSeg (psegStr ps) := by
  cases ps with
  | lit s =>
    exact ⟨h.1, fun hmem => plainChar_ne_slash '/' (h.2 '/' hmem) rfl⟩
  | par n =>
    refine ⟨by simp [psegStr], ?_⟩
    intro hmem
    rw [psegStr] at hmem
    rcases List.mem_cons.mp hmem with he | he
    · exact absurd he.symm (by decide)
    · exact wordChar_ne_slash '/' (h.2 '/' he) rfl

/-- `joinSegs` of a nonempty list starts with its slash. -/
theorem joinSegs_eq_cons (segs : List (List Char)) (h : segs ≠ []) :
    joinSegs segs = '/' :: intercalSlash segs := by
  induction segs with
  | nil => exact absurd rfl h
  | cons s rest ih =>
    cases rest with
    | nil => simp [joinSegs, intercalSlash]
    | cons s2 rest2 =>
      rw [joinSegs, ih (by simp)]
      have : intercalSlash (s :: s2 :: rest2) = s ++ '/' :: intercalSlash (s2 :: rest2) := rfl
      rw [this]

/-- The nonempty segments of `joinSegs` are the segments themselves. -/
theorem segsOf_joinSegs (segs : List (List Char)) (h : ∀ s ∈ segs, goodSeg s) :
    segsOf (joinSegs segs) = segs := by
  cases hs : segs with
  | nil => rfl
  | cons s rest =>
    rw [← hs, joinSegs_eq_cons segs (by rw [hs]; simp), segsOf_cons_slash]
    exact segsOf_intercal segs h

/-- The normalization `Router.normalizePath` performs does not change the
nonempty segments. -/
theorem segsOf_routerNormalizePath (p : List Char) :
    segsOf (Router.normalizePath p) = segsOf p := by
  rw [Router.normalizePath]
  have hq : segsOf (if p.head? = some '/' then p else '/' :: p) = segsOf p := by
    by_cases hh : p.head? = some '/'
    · rw [if_pos hh]
    · rw [if_neg hh, segsOf_cons_slash]
  set q := if p.head? = some '/' then p else '/' :: p with hqdef
  by_cases hc : 1 < q.length ∧ q.getLast? = some '/'
  · rw [if_pos hc]
    have hdecomp : q.dropLast ++ ['/'] = q :=
      List.dropLast_append_getLast? '/' hc.2
    have h2 : segsOf q.dropLast = segsOf q := by
      conv_rhs => rw [← hdecomp]
      rw [segsOf_concat_slash]
    rw [h2, hq]
  · rw [if_neg hc]
    exact hq

/-- `segSeqMatch` is reflexive. -/
theorem segSeqMatch_refl (l : List (List Char)) : Router.segSeqMatch l l = true := by
  induction l with
  | nil => rfl
  | cons s rest ih =>
    rw [Router.segSeqMatch]
    by_cases hh : s.head? = some ':'
    · simp [hh, ih]
    · simp [hh, ih]

/-- The router's per-route match is equivalent to the segment walk over the
prefix-prepended pattern and the request path: the exact-equality fast path
is subsumed by the segment walk. -/
theorem routerRouteMatches_eq_seg (b p c : List Char) :
    Router.routeMatches b p c = Router.segSeqMatch (segsOf (b ++ p)) (segsOf c) := by
  rw [Router.routeMatches]
  rcases hex : (!(p.contains ':') && Router.normalizePath (b ++ p) == Router.normalizePath c)
    with _ | _
  · simp only [hex, Bool.false_or]
    rw [segsOf_routerNormalizePath, segsOf_routerNormalizePath]
  · have heqp : Router.normalizePath (b ++ p) = Router.normalizePath c := by
      have hx := hex
      rw [Bool.and_eq_true] at hx
      exact eq_of_beq hx.2
    simp only [hex, Bool.true_or]
    have hsg : segsOf (b ++ p) = segsOf c := by
      rw [← segsOf_routerNormalizePath (b ++ p), heqp, segsOf_routerNormalizePath]
    rw [hsg]
    exact (segSeqMatch_refl _).symm

/-- An element reported by `getLast?` is a member. -/
theorem getLast?_mem_self {α : Type} {l : List α} {a : α} (h : l.getLast? = some a) :
    a ∈ l := by
  obtain ⟨hne, heq⟩ := List.mem_getLast?_eq_getLast (l := l) (x := a) (by simp [h, Option.mem_def])
  rw [heq]
  exact List.getLast_mem hne

/-- Unfolding the tokenizer at a non-colon character. -/
theorem tokenizePattern_cons_ne (c : Char) (rest : List Char) (hc : c ≠ ':') :
    tokenizePattern (c :: rest) = RTok.lit c :: tokenizePattern rest := by
  rw [tokenizePattern.eq_def]
  split
  · rename_i heq
    cases heq
  · rename_i heq
    injection heq with h1 h2
    exact absurd h1 hc
  · rename_i x y hx heq
    injection heq with h1 h2
    rw [h1, h2]

/-- Unfolding the tokenizer after a colon. -/
theorem tokenizeColon_cons (c : Char) (rest : List Char) :
    tokenizeColon (c :: rest) =
      (if wordChar c then RTok.param :: tokenizeName rest
       else if c = ':' then RTok.lit ':' :: tokenizeColon rest
       else RTok.lit ':' :: RTok.lit c :: tokenizePattern rest) := rfl

/-- Unfolding the tokenizer inside a parameter name. -/
theorem tokenizeName_cons (c : Char) (rest : List Char) :
    tokenizeName (c :: rest) =
      (if wordChar c then tokenizeName rest
       else if c = ':' then tokenizeColon rest
       else RTok.lit c :: tokenizePattern rest) := rfl

/-- Tokenizing a run of plain literal characters produces literal tokens. -/
theorem tokenizePattern_append_lit (s : List Char) (hs : ∀ c ∈ s, plainChar c)
    (y : List Char) :
    tokenizePattern (s ++ y) = s.map RTok.lit ++ tokenizePattern y := by
  induction s with
  | nil => simp
  | cons c s' ih =>
    rw [List.cons_append, tokenizePattern_cons_ne c _ (plainChar_ne_colon c (hs c (by simp)))]
    rw [ih (fun d hd => hs d (by simp [hd]))]
    rfl

/-- The tokenizer skips the rest of a parameter name. -/
theorem tokenizeName_append (n : List Char) (hn : ∀ c ∈ n, wordChar c = true)
    (y : List Char) :
    tokenizeName (n ++ y) = tokenizeName y := by
  induction n with
  | nil => simp
  | cons c n' ih =>
    rw [List.cons_append, tokenizeName_cons, if_pos (hn c (by simp))]
    exact ih (fun d hd => hn d (by simp [hd]))

/-- On a canonical pattern, both entry states of the tokenizer produce
exactly the expected token sequence. -/
theorem tokenize_canon (psegs : List PSeg) (hwf : ∀ ps ∈ psegs, wfPSeg ps) :
    tokenizePattern (joinSegs (psegs.map psegStr)) = tokensOf psegs
    ∧ tokenizeName (joinSegs (psegs.map psegStr)) = tokensOf psegs := by
  induction psegs with
  | nil => exact ⟨rfl, rfl⟩
  | cons ps rest ih =>
    obtain ⟨ih1, ih2⟩ := ih (fun q hq => hwf q (by simp [hq]))
    have hwfp : wfPSeg ps := hwf ps (by simp)
    have hjoin : joinSegs ((ps :: rest).map psegStr)
        = '/' :: (psegStr ps ++ joinSegs (rest.map psegStr)) := rfl
    have hT : tokenizePattern (psegStr ps ++ joinSegs (rest.map psegStr))
        = segToks ps ++ tokensOf rest := by
      cases ps with
      | lit s =>
        rw [psegStr, tokenizePattern_append_lit s hwfp.2 _, ih1]
        rfl
      | par n =>
        cases n with
        | nil => exact absurd rfl hwfp.1
        | cons c n' =>
          have hword : ∀ d ∈ c :: n', wordChar d = true := hwfp.2
          have h1 : tokenizePattern (psegStr (PSeg.par (c :: n')) ++ joinSegs (rest.map psegStr))
              = tokenizeColon (c :: (n' ++ joinSegs (rest.map psegStr))) := rfl
          rw [h1, tokenizeColon_cons, if_pos (hword c (by simp))]
          rw [tokenizeName_append n' (fun d hd => hword d (by simp [hd])) _, ih2]
          rfl
    refine ⟨?_, ?_⟩
    · rw [hjoin, tokenizePattern_cons_ne '/' _ (by decide), hT]
      rfl
    · rw [hjoin, tokenizeName_cons, if_neg (by decide), if_neg (by decide), hT]
      rfl

/-- The last character of a canonical join is never a slash. -/
theorem getLast?_joinSegs_ne_slash (segs : List (List Char)) (hne : segs ≠ [])
    (hg : ∀ s ∈ segs, goodSeg s) :
    ∀ a, (joinSegs segs).getLast? = some a → a ≠ '/' := by
  induction segs with
  | nil => exact absurd rfl hne
  | cons s rest ih =>
    intro a ha
    cases rest with
    | nil =>
      have hs := hg s (by simp)
      have hform : joinSegs [s] = ['/'] ++ s := by
        rw [joinSegs, joinSegs]
        simp
      rw [hform, List.getLast?_append_of_ne_nil ['/'] hs.1] at ha
      intro he
      rw [he] at ha
      exact hs.2 (getLast?_mem_self ha)
    | cons s2 rest2 =>
      have hform : joinSegs (s :: s2 :: rest2) = ('/' :: s) ++ joinSegs (s2 :: rest2) := by
        rw [joinSegs]
        simp
      have hjne : joinSegs (s2 :: rest2) ≠ [] := by rw [joinSegs]; simp
      rw [hform, List.getLast?_append_of_ne_nil _ hjne] at ha
      exact ih (by simp) (fun x hx => hg x (by simp [hx])) a ha

/-- Stripping trailing slashes is the identity when the last character is not
a slash. -/
theorem stripTrailingSlashes_id (p : List Char) (h : ∀ a, p.getLast? = some a → a ≠ '/') :
    stripTrailingSlashes p = p := by
  rw [stripTrailingSlashes]
  cases hrev : p.reverse with
  | nil =>
    have : p = [] := by simpa using congrArg List.reverse hrev
    rw [List.dropWhile_nil]
    simp [this]
  | cons c t =>
    have hlast : p.getLast? = some c := by
      rw [← List.head?_reverse, hrev]
      rfl
    rw [List.dropWhile_cons, if_neg (by simp [h c hlast])]
    rw [← hrev]
    simp

/-- Unfolding `tokMatch`: empty regex rejects a nonempty input. -/
theorem tokMatch_nil_cons (d : Char) (s : List Char) : tokMatch [] (d :: s) = false := rfl

/-- Unfolding `tokMatch`: a literal token rejects the empty input. -/
theorem tokMatch_lit_nil (c : Char) (ts : List RTok) : tokMatch (RTok.lit c :: ts) [] = false := rfl

/-- Unfolding `tokMatch` at a literal token. -/
theorem tokMatch_lit_cons (c : Char) (ts : List RTok) (d : Char) (s : List Char) :
    tokMatch (RTok.lit c :: ts) (d :: s) = (c == d && tokMatch ts s) := rfl

/-- Unfolding `tokMatch`: a parameter group rejects the empty input. -/
theorem tokMatch_param_nil (ts : List RTok) : tokMatch (RTok.param :: ts) [] = false := rfl

/-- Unfolding `tokMatch` at a parameter group. -/
theorem tokMatch_param_cons (ts : List RTok) (d : Char) (s : List Char) :
    tokMatch (RTok.param :: ts) (d :: s)
      = (!(d == '/') && (tokMatch ts s || tokMatch (RTok.param :: ts) s)) := rfl

/-- The token list of a canonical pattern is empty or starts with the slash
literal. -/
theorem tokensOf_shape (psegs : List PSeg) :
    tokensOf psegs = [] ∨ ∃ T', tokensOf psegs = RTok.lit '/' :: T' := by
  cases psegs with
  | nil => exact Or.inl rfl
  | cons ps rest => exact Or.inr ⟨segToks ps ++ tokensOf rest, rfl⟩

/-- A canonical join is empty or starts with a slash. -/
theorem joinSegs_shape (csegs : List (List Char)) :
    joinSegs csegs = [] ∨ ∃ S', joinSegs csegs = '/' :: S' := by
  cases csegs with
  | nil => exact Or.inl rfl
  | cons cs rest => exact Or.inr ⟨cs ++ joinSegs rest, rfl⟩

/-- Matching a run of literal tokens against a concrete segment: under the
segment boundaries (the continuations start with a slash or are empty, and
neither side contains a slash), the run matches exactly when the segment is
literally equal and the continuations match. -/
theorem tokMatch_litseq (s : List Char) :
    ∀ (cs : List Char), '/' ∉ s → '/' ∉ cs →
    ∀ (T : List RTok) (S : List Char),
    (T = [] ∨ ∃ T', T = RTok.lit '/' :: T') →
    (S = [] ∨ ∃ S', S = '/' :: S') →
    (tokMatch (s.map RTok.lit ++ T) (cs ++ S) = true ↔ s = cs ∧ tokMatch T S = true) := by
  induction s with
  | nil =>
    intro cs hs hcs T S hT hS
    cases cs with
    | nil => simp
    | cons d cs' =>
      simp only [List.map_nil, List.nil_append, List.cons_append]
      constructor
      · intro h
        exfalso
        have hd : ('/' == d) = false := by
          simp only [beq_eq_false_iff_ne, ne_eq]
          intro he
          exact hcs (by simp [← he])
        rcases hT with rfl | ⟨T', rfl⟩
        · rw [tokMatch_nil_cons] at h
          exact absurd h (by simp)
        · rw [tokMatch_lit_cons, hd] at h
          simp at h
      · rintro ⟨h, -⟩
        cases h
  | cons a s' ih =>
    intro cs hs hcs T S hT hS
    have ha : a ≠ '/' := fun he => hs (by simp [he])
    cases cs with
    | nil =>
      simp only [List.map_cons, List.cons_append, List.nil_append]
      constructor
      · intro h
        exfalso
        rcases hS with rfl | ⟨S', rfl⟩
        · rw [tokMatch_lit_nil] at h
          exact absurd h (by simp)
        · rw [tokMatch_lit_cons] at h
          have : (a == '/') = false := by simp [ha]
          rw [this] at h
          simp at h
      · rintro ⟨h, -⟩
        cases h
    | cons d cs' =>
      simp only [List.map_cons, List.cons_append]
      rw [tokMatch_lit_cons]
      rw [Bool.and_eq_true]
      rw [ih cs' (fun hm => hs (by simp [hm])) (fun hm => hcs (by simp [hm])) T S hT hS]
      constructor
      · rintro ⟨h1, h2, h3⟩
        exact ⟨by rw [eq_of_beq h1, h2], h3⟩
      · rintro ⟨h1, h3⟩
        obtain ⟨rfl, rfl⟩ := List.cons.inj h1
        exact ⟨by simp, rfl, h3⟩

/-- Matching a parameter group against a concrete segment: under the same
boundary conditions, the group absorbs exactly the (nonempty, slash-free)
segment. -/
theorem tokMatch_param_seg (cs : List Char) :
    cs ≠ [] → '/' ∉ cs →
    ∀ (T : List RTok) (S : List Char),
    (T = [] ∨ ∃ T', T = RTok.lit '/' :: T') →
    (S = [] ∨ ∃ S', S = '/' :: S') →
    (tokMatch (RTok.param :: T) (cs ++ S) = true ↔ tokMatch T S = true) := by
  induction cs with
  | nil => intro h; exact absurd rfl h
  | cons a cs' ih =>
    intro _ hcs T S hT hS
    have ha : (a == '/') = false := by
      simp only [beq_eq_false_iff_ne, ne_eq]
      intro he
      exact hcs (by simp [he])
    cases cs' with
    | nil =>
      simp only [List.cons_append, List.nil_append]
      rw [tokMatch_param_cons, ha]
      simp only [Bool.not_false, Bool.true_and, Bool.or_eq_true]
      constructor
      · rintro (h | h)
        · exact h
        · exfalso
          rcases hS with rfl | ⟨S', rfl⟩
          · rw [tokMatch_param_nil] at h
            exact absurd h (by simp)
          · rw [tokMatch_param_cons] at h
            simp at h
      · exact fun h => Or.inl h
    | cons e cs'' =>
      simp only [List.cons_append]
      rw [tokMatch_param_cons, ha]
      simp only [Bool.not_false, Bool.true_and, Bool.or_eq_true]
      have he : e ≠ '/' := fun hm => hcs (by simp [hm])
      have hih := ih (by simp) (fun hm => hcs (by simp [hm])) T S hT hS
      rw [List.cons_append] at hih
      rw [hih]
      constructor
      · rintro (h | h)
        · exfalso
          rcases hT with rfl | ⟨T', rfl⟩
          · rw [tokMatch_nil_cons] at h
            exact absurd h (by simp)
          · rw [tokMatch_lit_cons] at h
            have : ('/' == e) = false := by simp [Ne.symm he]
            rw [this] at h
            simp at h
        · exact h
      · exact fun h => Or.inr h

/-- Canonical-form equivalence of the regex matcher and the segment walk:
on a `/`-led pattern of well-formed segments and a `/`-led concrete path of
nonempty slash-free segments, `tokMatch` agrees with `segSeqMatch`. -/
theorem tokMatch_canon (psegs : List PSeg) :
    ∀ (csegs : List (List Char)), (∀ ps ∈ psegs, wfPSeg ps) → (∀ s ∈ csegs, goodSeg s) →
    (tokMatch (tokensOf psegs) (joinSegs csegs) = true ↔
      Router.segSeqMatch (psegs.map psegStr) csegs = true) := by
  induction psegs with
  | nil =>
    intro csegs _ _
    cases csegs with
    | nil => simp [tokensOf, joinSegs, Router.segSeqMatch, show tokMatch [] [] = true from rfl]
    | cons cs csrest =>
      have h1 : joinSegs (cs :: csrest) = '/' :: (cs ++ joinSegs csrest) := rfl
      rw [tokensOf, h1, tokMatch_nil_cons]
      have h2 : Router.segSeqMatch ([] : List (List Char)) (cs :: csrest) = false := rfl
      rw [List.map_nil, h2]
  | cons ps rest ih =>
    intro csegs hwf hcs
    cases csegs with
    | nil =>
      rw [tokensOf]
      have h0 : joinSegs ([] : List (List Char)) = [] := rfl
      rw [h0, tokMatch_lit_nil]
      have h2 : Router.segSeqMatch (psegStr ps :: rest.map psegStr) [] = false := rfl
      rw [List.map_cons, h2]
    | cons cs csrest =>
      have h1 : joinSegs (cs :: csrest) = '/' :: (cs ++ joinSegs csrest) := rfl
      rw [tokensOf, h1, tokMatch_lit_cons]
      simp only [beq_self_eq_true, Bool.true_and]
      have hT := tokensOf_shape rest
      have hS := joinSegs_shape csrest
      have hcs0 := hcs cs (by simp)
      have hih := ih csrest (fun q hq => hwf q (by simp [hq])) (fun x hx => hcs x (by simp [hx]))
      have hseg : Router.segSeqMatch ((ps :: rest).map psegStr) (cs :: csrest)
          = ((if (psegStr ps).head? = some ':' then true else psegStr ps == cs)
              && Router.segSeqMatch (rest.map psegStr) csrest) := rfl
      rw [hseg]
      cases ps with
      | lit s =>
        have hwfs := hwf (PSeg.lit s) (by simp)
        have hsl : '/' ∉ s := fun hm => plainChar_ne_slash '/' (hwfs.2 '/' hm) rfl
        have hlit := tokMatch_litseq s cs hsl hcs0.2 (tokensOf rest) (joinSegs csrest) hT hS
        have hsegToks : segToks (PSeg.lit s) = s.map RTok.lit := rfl
        rw [hsegToks, hlit, hih]
        have hhead : ¬ (psegStr (PSeg.lit s)).head? = some ':' := by
          cases s with
          | nil => exact absurd rfl hwfs.1
          | cons c t =>
            simp only [psegStr, List.head?_cons, Option.some.injEq]
            exact plainChar_ne_colon c (hwfs.2 c (by simp))
        rw [if_neg hhead]
        simp [Bool.and_eq_true, beq_iff_eq]
        intro _
        rfl
      | par n =>
        have hpar := tokMatch_param_seg cs hcs0.1 hcs0.2 (tokensOf rest) (joinSegs csrest) hT hS
        have hsegToks : segToks (PSeg.par n) ++ tokensOf rest = RTok.param :: tokensOf rest := rfl
        rw [hsegToks, hpar, hih]
        have hhead : (psegStr (PSeg.par n)).head? = some ':' := rfl
        rw [if_pos hhead]
        simp

/-- On canonical inputs the Application's matcher coincides with the segment
walk (the root special case included). -/
theorem appMatch_canon (psegs : List PSeg) (csegs : List (List Char))
    (hwf : ∀ ps ∈ psegs, wfPSeg ps) (hcs : ∀ s ∈ csegs, goodSeg s) :
    (Application.matchRoute (canonPat psegs) (canonPath csegs) = true ↔
      Router.segSeqMatch (psegs.map psegStr) csegs = true) := by
  cases psegs with
  | nil =>
    have hpat : canonPat ([] : List PSeg) = ['/'] := rfl
    rw [hpat, Application.matchRoute, if_pos rfl]
    cases csegs with
    | nil => simp [canonPath, Router.segSeqMatch]
    | cons cs csr =>
      have hcp : canonPath (cs :: csr) = '/' :: (cs ++ joinSegs csr) := by
        rw [canonPath, if_neg (by simp)]
        rfl
      rw [hcp]
      have hcs0 := hcs cs (by simp)
      have hne : cs ++ joinSegs csr ≠ [] := by
        intro he
        exact hcs0.1 (List.append_eq_nil.mp he).1
      constructor
      · intro h
        exfalso
        simp only [Bool.or_eq_true, beq_iff_eq] at h
        rcases h with h | h
        · exact hne (List.cons.inj h).2
        · exact absurd h (by simp)
      · intro h
        exact absurd h (by simp [Router.segSeqMatch])
  | cons ps rest =>
    have hwfp : wfPSeg ps := hwf ps (by simp)
    have hpsne : psegStr ps ≠ [] := (psegStr_good ps hwfp).1
    have hpat : canonPat (ps :: rest) = joinSegs ((ps :: rest).map psegStr) := by
      rw [canonPat, canonPath, if_neg (by simp)]
    have hjoin : joinSegs ((ps :: rest).map psegStr)
        = '/' :: (psegStr ps ++ joinSegs (rest.map psegStr)) := rfl
    have hne : canonPat (ps :: rest) ≠ ['/'] := by
      rw [hpat, hjoin]
      intro he
      have := (List.cons.inj he).2
      exact hpsne (List.append_eq_nil.mp this).1
    rw [Application.matchRoute, if_neg hne, hpat]
    have hgoodsegs : ∀ s ∈ (ps :: rest).map psegStr, goodSeg s := by
      intro s hs
      obtain ⟨q, hq, rfl⟩ := List.mem_map.mp hs
      exact psegStr_good q (hwf q hq)
    rw [stripTrailingSlashes_id _
      (getLast?_joinSegs_ne_slash ((ps :: rest).map psegStr) (by simp) hgoodsegs)]
    rw [(tokenize_canon (ps :: rest) hwf).1]
    cases csegs with
    | nil =>
      have hcp : canonPath ([] : List (List Char)) = ['/'] := rfl
      rw [hcp]
      have htok : tokensOf (ps :: rest) = RTok.lit '/' :: (segToks ps ++ tokensOf rest) := rfl
      rw [htok, show (['/'] : List Char) = '/' :: [] from rfl, tokMatch_lit_cons]
      simp only [beq_self_eq_true, Bool.true_and]
      have hfalse : tokMatch (segToks ps ++ tokensOf rest) [] = false := by
        cases ps with
        | lit s =>
          cases s with
          | nil => exact absurd rfl hwfp.1
          | cons c t => exact tokMatch_lit_nil c _
        | par n => exact tokMatch_param_nil _
      rw [hfalse]
      have h2 : Router.segSeqMatch (psegStr ps :: rest.map psegStr) [] = false := rfl
      rw [List.map_cons, h2]
    | cons cs csr =>
      have hcp : canonPath (cs :: csr) = joinSegs (cs :: csr) := by
        rw [canonPath, if_neg (by simp)]
      rw [hcp]
      exact tokMatch_canon (ps :: rest) (cs :: csr) hwf hcs

/-- C9 counterexample: with base path `/api`, route `/users/:id` and request
path `/api/users/123/` (trailing slash), the Router matches but the
Application-level matcher applied to the prefix-prepended pattern does not —
the two matchers disagree on trailing-slash paths because only the Router
normalizes the concrete path. -/
theorem C9_trailing_slash_counterexample :
    Router.routeMatches (chars "/api") (chars "/users/:id") (chars "/api/users/123/") = true
    ∧ Application.matchRoute (chars "/api" ++ chars "/users/:id")
        (chars "/api/users/123/") = false := by
  decide

/-- C9 amended: router matching applies the segment walk to the
prefix-prepended pattern (the base prefix is prepended to the route's
pattern, not stripped from the path); it agrees with the Application-level
matcher on the normalized pattern `b + p` whenever the pattern and the
concrete path are in canonical form (leading slash, nonempty slash-free
segments, no trailing or repeated slashes, each pattern segment a plain
literal or a `:name` parameter) — but not on trailing-slash or
repeated-slash edge cases, where the Router normalizes the concrete path and
the Application matcher does not (see the counterexample). -/
theorem C9_router_matcher_canonical (b p c : List Char) (psegs : List PSeg)
    (csegs : List (List Char))
    (hbp : b ++ p = canonPat psegs) (hwf : ∀ ps ∈ psegs, wfPSeg ps)
    (hc : c = canonPath csegs) (hcs : ∀ s ∈ csegs, goodSeg s) :
    Router.routeMatches b p c = Application.matchRoute (b ++ p) c := by
  have hsegP : segsOf (b ++ p) = psegs.map psegStr := by
    rw [hbp, canonPat, canonPath]
    by_cases hps : psegs.map psegStr = []
    · rw [if_pos hps, hps]
      rfl
    · rw [if_neg hps]
      exact segsOf_joinSegs _ (fun s hs => by
        obtain ⟨q, hq, rfl⟩ := List.mem_map.mp hs
        exact psegStr_good q (hwf q hq))
  have hsegC : segsOf c = csegs := by
    rw [hc, canonPath]
    by_cases h0 : csegs = []
    · rw [if_pos h0, h0]
      rfl
    · rw [if_neg h0]
      exact segsOf_joinSegs _ hcs
  have happ := appMatch_canon psegs csegs hwf hcs
  rw [← hbp] at happ
  rw [← hc] at happ
  rw [routerRouteMatches_eq_seg, hsegP, hsegC]
  cases hx : Router.segSeqMatch (psegs.map psegStr) csegs <;>
    cases hy : Application.matchRoute (b ++ p) c <;> simp_all

/-- Witness for C9 at base `/api`, route `/users/:id`, request
`/api/users/123` (canonical forms on both sides). -/
theorem C9_router_matcher_canonical_witness :
    Router.routeMatches (chars "/api") (chars "/users/:id") (chars "/api/users/123")
      = Application.matchRoute (chars "/api" ++ chars "/users/:id")
          (chars "/api/users/123") :=
  C9_router_matcher_canonical (chars "/api") (chars "/users/:id") (chars "/api/users/123")
    [PSeg.lit (chars "api"), PSeg.lit (chars "users"), PSeg.par (chars "id")]
    [chars "api", chars "users", chars "123"]
    (by decide) (by decide) (by decide) (by decide)

/-- C2 counterexample: `/users/123` matches `GET /users/:id` but `/users/123/`
(one trailing slash) does not — the two requests do not yield the same match,
because the source strips trailing slashes from the pattern only and never
normalizes the concrete path. -/
theorem C2_trailing_slash_counterexample :
    Application.matchRoute (chars "/users/:id") (chars "/users/123") = true
    ∧ Application.matchRoute (chars "/users/:id") (chars "/users/123/") = false := by
  decide

/-- C2 amended: requesting `/users/123` against route `/users/:id` matches
with params exactly `{ id: "123" }`, and `/users` (wrong segment count) does
not match; but `/users/123/` (trailing slash) does not match either — only
the pattern is normalized (all its trailing slashes are stripped, so the
registered pattern `/users/:id/` also matches `/users/123`), the concrete
request path is matched verbatim. -/
theorem C2_params_and_trailing_slash :
    Application.matchRoute (chars "/users/:id") (chars "/users/123") = true
    ∧ Application.extractParams (chars "/users/:id") (chars "/users/123")
        = [(chars "id", chars "123")]
    ∧ Application.matchRoute (chars "/users/:id") (chars "/users") = false
    ∧ Application.matchRoute (chars "/users/:id") (chars "/users/123/") = false
    ∧ Application.matchRoute (chars "/users/:id/") (chars "/users/123") = true
    ∧ stripTrailingSlashes (chars "/users/:id/") = chars "/users/:id" := by
  decide

end ExpressSpec
